import Mathlib

/-!
# go-localstore: a verification development

Shallow embedding of `localstore.go` (package `localstore`) and proofs of its
specified properties.

The package is glue over Go standard-library packages.  They are modelled here
as follows.

* `os`, `io/ioutil`: a filesystem is a total map from path strings to nodes
  (`FS`).  A node is a regular file with its content, a directory in which
  entries may be created (`Node.dir`), a directory in which they may not
  (`Node.readOnlyDir`), or a path the process may not access, such as a file it
  may not open for reading and writing (`Node.noAccess`).  A file or directory
  can only be created at an absent path that lies in a `Node.dir` (`dirOf`,
  `createError`).  Files that exist are readable and writable.  Every system
  call is appended to `World.calls`, so that attempted calls are observable.
* `os/user`: `World.home` is what `user.Current()` reports.
* `path`: `pathJoin` joins two elements with a slash (without `path.Clean`).
* `encoding/json`: the text of a file is a sequence of Unicode scalar values
  (`List Char`: files that are valid UTF-8).  A Go string is a sequence of
  characters and of bytes that are never part of UTF-8 (`GoString`).  The decoder
  first reads the text into a syntax tree (`Json`, with numbers kept as their
  literal text) and then stores the tree into a variable according to its Go
  type (`storeJson`).
* `strconv`, `strings`: the `float64` type with `strconv.ParseFloat` and the
  text `json.Marshal` writes for a `float64`, and `strings.EqualFold`, are taken
  as given (`GoLib`): nothing is assumed of them but that a `float64` is written
  as a JSON number that reads back as the same `float64` (`Lawful`), and the
  theorems that need this say so.

Limits of resources are not modelled: a write never runs out of space, memory
and file descriptors do not run out, and a document is read whatever the depth
of its nesting.
-/

namespace Localstore

/-! ## Errors -/

/-- The error numbers the filesystem model can report. -/
inductive Errno where
  | ENOENT
  | EISDIR
  | EACCES
  | EEXIST
  | ENOTDIR
  deriving DecidableEq, Repr

/-- Go `error` values.  `errorsNew msg` stands for the pointer returned by one
`errors.New(msg)` call at package initialisation; two such values are the same
error exactly when they come from the same call, which the message identifies
for the three sentinels used here. -/
inductive GoError where
  | pathError (op : String) (path : String) (errno : Errno)
  | errorsNew (msg : String)
  | syntaxError
  | unmarshalTypeError (value : String)
  | unsupportedTypeError
  | userError
  deriving DecidableEq, Repr

/-- The sentinel `io.EOF`. -/
def io_EOF : GoError := GoError.errorsNew "EOF"

/-- The sentinel `io.ErrUnexpectedEOF`. -/
def io_ErrUnexpectedEOF : GoError := GoError.errorsNew "unexpected EOF"

/-- Line 14: `var ErrNotFound = errors.New("Key not found.")`. -/
def ErrNotFound : GoError := GoError.errorsNew "Key not found."

/-- The type assertion `err.(*os.PathError)`. -/
def GoError.isPathError : GoError → Bool
  | GoError.pathError _ _ _ => true
  | _ => false

/-- The predicate `os.IsNotExist`. -/
def osIsNotExist : GoError → Bool
  | GoError.pathError _ _ Errno.ENOENT => true
  | _ => false

/-! ## Go strings -/

/-- A byte that occurs in no UTF-8 encoding: 0xC0, 0xC1 or 0xF5 to 0xFF. -/
structure BadByte where
  val : Nat
  bad : val = 0xC0 ∨ val = 0xC1 ∨ (0xF5 ≤ val ∧ val ≤ 0xFF)
  deriving DecidableEq

/-- One step of reading a Go string with `utf8.DecodeRune`: a character, or a
byte that is not UTF-8. -/
inductive GoChar where
  | rune (c : Char)
  | bad (b : BadByte)
  deriving DecidableEq

/-- A Go `string`: its characters and, where it is not UTF-8, its bad bytes.
The strings that are valid UTF-8 are exactly those without a bad byte
(`validUTF8`).  Of the strings that are not, only those are represented whose
ill-formed bytes are bytes that occur in no UTF-8 encoding; they are enough to
show what becomes of such a string, and every theorem about a string that is
read back asks for `validUTF8`. -/
abbrev GoString := List GoChar

/-- The Go string with the given characters. -/
def goStr (s : String) : GoString := s.toList.map GoChar.rune

/-- Preserves the byte order of the UTF-8 encoding: ASCII, then the bytes 0xC0
and 0xC1, then the other characters, then the bytes from 0xF5. -/
def GoChar.rank : GoChar → Nat
  | GoChar.rune c => if c.toNat < 128 then c.toNat else c.toNat + 2
  | GoChar.bad b => if b.val < 0xC2 then b.val - 0x40 else b.val + 0x110000

/-- Byte order on Go strings, the order `json.Marshal` sorts map keys in. -/
def keyLt (a b : GoString) : Prop := a.map GoChar.rank < b.map GoChar.rank

instance (a b : GoString) : Decidable (keyLt a b) :=
  inferInstanceAs (Decidable (a.map GoChar.rank < b.map GoChar.rank))

/-- Whether the string is valid UTF-8. -/
def validUTF8 : GoString → Bool
  | [] => true
  | GoChar.rune _ :: t => validUTF8 t
  | GoChar.bad _ :: _ => false

/-- The characters of the string after coercion to valid UTF-8: each bad byte
becomes U+FFFD. -/
def coerceUTF8 : GoString → List Char
  | [] => []
  | GoChar.rune c :: t => c :: coerceUTF8 t
  | GoChar.bad _ :: t => Char.ofNat 0xFFFD :: coerceUTF8 t

/-! ## Numbers as JSON writes them -/

/-- Decimal digit test. -/
def isDigit (c : Char) : Bool := decide (48 ≤ c.toNat) && decide (c.toNat ≤ 57)

/-- Splits off a maximal run of digits. -/
def spanDigits : List Char → List Char × List Char
  | [] => ([], [])
  | c :: t => if isDigit c then (c :: (spanDigits t).1, (spanDigits t).2) else ([], c :: t)

/-- Reads the digits of a fraction or an exponent: there must be one at least. -/
def scanDigits1 : List Char → Except GoError (List Char × List Char)
  | [] => Except.error io_ErrUnexpectedEOF
  | c :: t =>
    if isDigit c then Except.ok (c :: (spanDigits t).1, (spanDigits t).2)
    else Except.error GoError.syntaxError

/-- Reads the integer part of a number: a single zero, or digits that do not
start with zero. -/
def scanInt : List Char → Except GoError (List Char × List Char)
  | [] => Except.error io_ErrUnexpectedEOF
  | c :: t =>
    if c = '0' then Except.ok (['0'], t)
    else if isDigit c then Except.ok (c :: (spanDigits t).1, (spanDigits t).2)
    else Except.error GoError.syntaxError

/-- Reads a fraction, if one follows. -/
def scanFrac : List Char → Except GoError (List Char × List Char)
  | [] => Except.ok ([], [])
  | c :: t =>
    if c = '.' then
      match scanDigits1 t with
      | Except.error e => Except.error e
      | Except.ok (ds, r) => Except.ok (c :: ds, r)
    else Except.ok ([], c :: t)

/-- Reads an exponent, if one follows. -/
def scanExp : List Char → Except GoError (List Char × List Char)
  | [] => Except.ok ([], [])
  | c :: t =>
    if c = 'e' ∨ c = 'E' then
      match t with
      | [] => Except.error io_ErrUnexpectedEOF
      | g :: u =>
        if g = '+' ∨ g = '-' then
          match scanDigits1 u with
          | Except.error e => Except.error e
          | Except.ok (ds, r) => Except.ok (c :: g :: ds, r)
        else
          match scanDigits1 (g :: u) with
          | Except.error e => Except.error e
          | Except.ok (ds, r) => Except.ok (c :: ds, r)
    else Except.ok ([], c :: t)

/-- Reads an unsigned number: integer part, fraction, exponent. -/
def scanUnsigned (s : List Char) : Except GoError (List Char × List Char) :=
  match scanInt s with
  | Except.error e => Except.error e
  | Except.ok (i, s1) =>
    match scanFrac s1 with
    | Except.error e => Except.error e
    | Except.ok (f, s2) =>
      match scanExp s2 with
      | Except.error e => Except.error e
      | Except.ok (x, s3) => Except.ok (i ++ (f ++ x), s3)

/-- Reads a JSON number and returns its text and what follows it. -/
def scanNumber : List Char → Except GoError (List Char × List Char)
  | [] => Except.error io_ErrUnexpectedEOF
  | c :: t =>
    if c = '-' then
      match scanUnsigned t with
      | Except.error e => Except.error e
      | Except.ok (tok, r) => Except.ok (c :: tok, r)
    else scanUnsigned (c :: t)

/-- What may follow a number without being read as part of it. -/
def numEnd : List Char → Bool
  | [] => true
  | c :: _ => !isDigit c && c != '.' && c != 'e' && c != 'E'

/-- Decimal digits of `n` in front of `acc`. -/
def natDigitsAux : Nat → Nat → List Char → List Char
  | 0, _, acc => acc
  | fuel + 1, n, acc =>
    if n / 10 = 0 then Char.ofNat (48 + n % 10) :: acc
    else natDigitsAux fuel (n / 10) (Char.ofNat (48 + n % 10) :: acc)

/-- Decimal digits of `n`. -/
def natDigits (n : Nat) : List Char := natDigitsAux (n + 1) n []

/-- An integer in decimal, as `strconv.FormatInt` writes it. -/
def encodeInt (n : Int) : List Char :=
  if n < 0 then '-' :: natDigits n.natAbs else natDigits n.natAbs

/-- The number a run of digits stands for, continuing from `acc`. -/
def digitsValue (acc : Nat) : List Char → Nat
  | [] => acc
  | c :: t => digitsValue (acc * 10 + (c.toNat - 48)) t

/-- The integer a run of digits with an optional minus sign stands for, if the
text is one. -/
def readInt : List Char → Option Int
  | [] => none
  | c :: t =>
    if c = '-' then
      if t ≠ [] ∧ t.all isDigit then some (-(digitsValue 0 t : Int)) else none
    else if (c :: t).all isDigit then some (digitsValue 0 (c :: t) : Int)
    else none

/-- The call `strconv.ParseInt(tok, 10, 64)` on the text of a JSON number. -/
def parseInt (tok : List Char) : Option Int :=
  match readInt tok with
  | some n => if -(2 : Int) ^ 63 ≤ n ∧ n < (2 : Int) ^ 63 then some n else none
  | none => none

/-- The library functions that are taken as given, over a type `F` for the
`float64` values `json.Marshal` accepts (the finite ones; NaN and the
infinities are among the values it rejects, `Value.chan`): `parseFloat` is
`strconv.ParseFloat` on the text of a JSON number (`none` when the number is out
of range), `formatFloat` is the text `json.Marshal` writes for a `float64`,
`equalFold` is `strings.EqualFold`. -/
class GoLib (F : Type) where
  parseFloat : List Char → Option F
  formatFloat : F → List Char
  equalFold : List Char → List Char → Bool

/-- What is assumed of the library: a `float64` is written as a JSON number, and
that number reads back as the same `float64`. -/
structure Lawful (F : Type) [GoLib F] : Prop where
  format_scan : ∀ (x : F) (rest : List Char), numEnd rest = true →
    scanNumber (GoLib.formatFloat x ++ rest) = Except.ok (GoLib.formatFloat x, rest)
  parse_format : ∀ x : F, GoLib.parseFloat (GoLib.formatFloat x) = some x

/-! ## encoding/json: reading the text -/

/-- The syntax of a JSON text.  Numbers are kept as written, strings are
decoded, the members of an object are in the order of the text. -/
inductive Json where
  | null
  | bool (b : Bool)
  | number (tok : List Char)
  | string (s : List Char)
  | array (items : List Json)
  | object (members : List (List Char × Json))

/-- JSON white space. -/
def isSpace (c : Char) : Bool := c = ' ' || c = '\t' || c = '\r' || c = '\n'

/-- Drops leading white space. -/
def skipWs : List Char → List Char
  | [] => []
  | c :: t => if isSpace c then skipWs t else c :: t

/-- Value of a hexadecimal digit. -/
def hexVal (c : Char) : Option Nat :=
  if 48 ≤ c.toNat ∧ c.toNat ≤ 57 then some (c.toNat - 48)
  else if 97 ≤ c.toNat ∧ c.toNat ≤ 102 then some (c.toNat - 87)
  else if 65 ≤ c.toNat ∧ c.toNat ≤ 70 then some (c.toNat - 55)
  else none

/-- Value of four hexadecimal digits. -/
def hex4 (a b c d : Char) : Option Nat :=
  match hexVal a, hexVal b, hexVal c, hexVal d with
  | some x, some y, some z, some w => some (((x * 16 + y) * 16 + z) * 16 + w)
  | _, _, _, _ => none

/-- The helper `getu4`: the code unit of a leading `\uXXXX`, if there is one. -/
def getu4 : List Char → Option Nat
  | e :: u :: a :: b :: c :: d :: _ =>
    if e = '\\' ∧ u = 'u' then hex4 a b c d else none
  | _ => none

/-- The character a one-letter escape stands for. -/
def unescapeSimple (e : Char) : Option Char :=
  if e = '"' then some '"'
  else if e = '\\' then some '\\'
  else if e = '/' then some '/'
  else if e = 'b' then some (Char.ofNat 8)
  else if e = 'f' then some (Char.ofNat 12)
  else if e = 'n' then some '\n'
  else if e = 'r' then some '\r'
  else if e = 't' then some '\t'
  else none

/-- The character a `\uXXXX` escape with code unit `n` stands for, and how many
characters of the following text belong to it (six when it is the first half of
a surrogate pair, none otherwise).  A surrogate without its partner is replaced
by U+FFFD. -/
def decodeUnit (n : Nat) (rest : List Char) : Char × Nat :=
  if 0xD800 ≤ n ∧ n < 0xE000 then
    match getu4 rest with
    | some m =>
      if n < 0xDC00 ∧ 0xDC00 ≤ m ∧ m < 0xE000 then
        (Char.ofNat (0x10000 + (n - 0xD800) * 0x400 + (m - 0xDC00)), 6)
      else (Char.ofNat 0xFFFD, 0)
    | none => (Char.ofNat 0xFFFD, 0)
  else (Char.ofNat n, 0)

/-- Puts a character in front of a parsed string. -/
def consChar (c : Char) (r : Except GoError (List Char × List Char)) :
    Except GoError (List Char × List Char) :=
  match r with
  | Except.ok (s, rest) => Except.ok (c :: s, rest)
  | Except.error e => Except.error e

/-- Reads four hexadecimal digits from the front of the text. -/
def readHex4 : List Char → Except GoError Nat
  | a :: b :: c :: d :: _ =>
    match hex4 a b c d with
    | some n => Except.ok n
    | none => Except.error GoError.syntaxError
  | l =>
    if l.all (fun c => (hexVal c).isSome) then Except.error io_ErrUnexpectedEOF
    else Except.error GoError.syntaxError

/-- Where the string reader is: between characters, right after a backslash,
or inside an escape with `k + 1` more characters to pass over. -/
inductive StrState where
  | normal
  | escape
  | skip (k : Nat)

/-- Reads a string after its opening quote: the decoded characters and the text
after the closing quote. -/
def parseStringBody : StrState → List Char → Except GoError (List Char × List Char)
  | _, [] => Except.error io_ErrUnexpectedEOF
  | StrState.skip k, _ :: t =>
    match k with
    | 0 => parseStringBody StrState.normal t
    | j + 1 => parseStringBody (StrState.skip j) t
  | StrState.escape, e :: t =>
    if e = 'u' then
      match readHex4 t with
      | Except.error err => Except.error err
      | Except.ok n =>
        consChar (decodeUnit n (t.drop 4)).1
          (parseStringBody (StrState.skip ((decodeUnit n (t.drop 4)).2 + 3)) t)
    else
      match unescapeSimple e with
      | some ch => consChar ch (parseStringBody StrState.normal t)
      | none => Except.error GoError.syntaxError
  | StrState.normal, c :: t =>
    if c = '"' then Except.ok ([], t)
    else if c = '\\' then parseStringBody StrState.escape t
    else if c.toNat < 32 then Except.error GoError.syntaxError
    else consChar c (parseStringBody StrState.normal t)

/-- Reads a number. -/
def parseNumber (s : List Char) : Except GoError (Json × List Char) :=
  match scanNumber s with
  | Except.error e => Except.error e
  | Except.ok (tok, rest) => Except.ok (Json.number tok, rest)

/-- Reads the remaining letters of `true`, `false` or `null`. -/
def expectChars : List Char → List Char → Except GoError (List Char)
  | [], s => Except.ok s
  | _ :: _, [] => Except.error io_ErrUnexpectedEOF
  | e :: es, c :: s => if c = e then expectChars es s else Except.error GoError.syntaxError

/-- Reads a quoted member name and the colon after it. -/
def parseKey (s : List Char) : Except GoError (List Char × List Char) :=
  match skipWs s with
  | [] => Except.error io_ErrUnexpectedEOF
  | c :: t =>
    if c = '"' then
      match parseStringBody StrState.normal t with
      | Except.error e => Except.error e
      | Except.ok (k, rest) =>
        match skipWs rest with
        | [] => Except.error io_ErrUnexpectedEOF
        | c2 :: t2 => if c2 = ':' then Except.ok (k, t2) else Except.error GoError.syntaxError
    else Except.error GoError.syntaxError

mutual
/-- Reads one JSON value and returns it with the text after it.  Each call
consumes at least one character per unit of fuel, so a fuel above the length of
the text is never used up (`parse_fuel`). -/
def parseValue : Nat → List Char → Except GoError (Json × List Char)
  | 0, _ => Except.error GoError.syntaxError
  | fuel + 1, s =>
    match skipWs s with
    | [] => Except.error io_ErrUnexpectedEOF
    | c :: t =>
      if c = '\x7b' then
        match skipWs t with
        | [] => Except.error io_ErrUnexpectedEOF
        | c1 :: t1 =>
          if c1 = '\x7d' then Except.ok (Json.object [], t1)
          else
            match parseKey (c1 :: t1) with
            | Except.error e => Except.error e
            | Except.ok (k, r) =>
              match parseValue fuel r with
              | Except.error e => Except.error e
              | Except.ok (v, r1) => parseMembers fuel [(k, v)] r1
      else if c = '[' then
        match skipWs t with
        | [] => Except.error io_ErrUnexpectedEOF
        | c1 :: t1 =>
          if c1 = ']' then Except.ok (Json.array [], t1)
          else
            match parseValue fuel (c1 :: t1) with
            | Except.error e => Except.error e
            | Except.ok (v, r1) => parseItems fuel [v] r1
      else if c = '"' then
        match parseStringBody StrState.normal t with
        | Except.error e => Except.error e
        | Except.ok (str, r) => Except.ok (Json.string str, r)
      else if c = 't' then
        match expectChars ['r', 'u', 'e'] t with
        | Except.error e => Except.error e
        | Except.ok r => Except.ok (Json.bool true, r)
      else if c = 'f' then
        match expectChars ['a', 'l', 's', 'e'] t with
        | Except.error e => Except.error e
        | Except.ok r => Except.ok (Json.bool false, r)
      else if c = 'n' then
        match expectChars ['u', 'l', 'l'] t with
        | Except.error e => Except.error e
        | Except.ok r => Except.ok (Json.null, r)
      else if c = '-' ∨ isDigit c = true then parseNumber (c :: t)
      else Except.error GoError.syntaxError
/-- Reads the rest of an array after an item; `acc` holds the items read so
far, last first. -/
def parseItems : Nat → List Json → List Char → Except GoError (Json × List Char)
  | 0, _, _ => Except.error GoError.syntaxError
  | fuel + 1, acc, s =>
    match skipWs s with
    | [] => Except.error io_ErrUnexpectedEOF
    | c :: t =>
      if c = ']' then Except.ok (Json.array acc.reverse, t)
      else if c = ',' then
        match parseValue fuel t with
        | Except.error e => Except.error e
        | Except.ok (v, r) => parseItems fuel (v :: acc) r
      else Except.error GoError.syntaxError
/-- Reads the rest of an object after a member; `acc` holds the members read so
far, last first. -/
def parseMembers : Nat → List (List Char × Json) → List Char →
    Except GoError (Json × List Char)
  | 0, _, _ => Except.error GoError.syntaxError
  | fuel + 1, acc, s =>
    match skipWs s with
    | [] => Except.error io_ErrUnexpectedEOF
    | c :: t =>
      if c = '\x7d' then Except.ok (Json.object acc.reverse, t)
      else if c = ',' then
        match parseKey t with
        | Except.error e => Except.error e
        | Except.ok (k, r) =>
          match parseValue fuel r with
          | Except.error e => Except.error e
          | Except.ok (v, r1) => parseMembers fuel ((k, v) :: acc) r1
      else Except.error GoError.syntaxError
end

/-- What `Decoder.Decode` reads from a stream: the first JSON value.  A stream
holding nothing or only white space gives `io.EOF`; text after the value is not
looked at. -/
def readJson (content : List Char) : Except GoError Json :=
  match skipWs content with
  | [] => Except.error io_EOF
  | c :: t =>
    match parseValue ((c :: t).length + 1) (c :: t) with
    | Except.error e => Except.error e
    | Except.ok (j, _) => Except.ok j

/-! ## Go values -/

/-- The Go types of the variables that are modelled: `interface{}`, `bool`,
`int`, `string`, `[]interface{}`, `map[string]interface{}`, and struct types. -/
inductive GoType where
  | iface
  | bool
  | int
  | string
  | slice
  | map
  | struct
  deriving DecidableEq

/-- Go values, over a type `F` for `float64`: `null` is nil (a nil interface,
map or slice), `num` a `float64`, `int` an `int` (of 64 bits), `arr` a
`[]interface{}`, `obj` a `map[string]interface{}`, `record` a struct value,
given by its exported, untagged fields in the order of their declaration, each
with its name, its type and its value; `chan` stands for any value
`json.Marshal` rejects (a channel, a function, a NaN). -/
inductive Value (F : Type) where
  | null
  | bool (b : Bool)
  | num (x : F)
  | int (n : Int)
  | str (s : GoString)
  | arr (items : List (Value F))
  | obj (fields : List (GoString × Value F))
  | record (fields : List (List Char × GoType × Value F))
  | chan

/-- A Go `map[string]interface{}`, kept with strictly increasing keys. -/
abbrev GoMap (F : Type) := List (GoString × Value F)

/-- The fields of a struct value. -/
abbrev Fields (F : Type) := List (List Char × GoType × Value F)

variable {F : Type}

/-- The map index expression `m[key]` with its `ok` flag. -/
def mapGet : GoMap F → GoString → Option (Value F)
  | [], _ => none
  | (k, v) :: t, key => if key = k then some v else mapGet t key

/-- The map assignment `m[key] = value`. -/
def mapSet : GoMap F → GoString → Value F → GoMap F
  | [], key, value => [(key, value)]
  | (k, v) :: t, key, value =>
    if key = k then (key, value) :: t
    else if keyLt key k then (key, value) :: (k, v) :: t
    else (k, v) :: mapSet t key value

/-- The map a variable of map type holds (a nil map has no entries). -/
def Value.toMap : Value F → GoMap F
  | Value.obj m => m
  | _ => []

/-- The fields a variable of struct type holds. -/
def Value.toFields : Value F → Fields F
  | Value.record fs => fs
  | _ => []

/-- Keys strictly increasing. -/
def KeysSorted : GoMap F → Prop
  | [] => True
  | (k, _) :: t => (∀ p ∈ t, keyLt k p.1) ∧ KeysSorted t

mutual
/-- The value is JSON-representable as an `interface{}`: it is one of the values
the decoder stores into an `interface{}` (nil, a `bool`, a `float64`, a string
that is valid UTF-8, a `[]interface{}` or a `map[string]interface{}` of such
values), every map being in its one representation, with strictly increasing
keys. -/
def Canonical : Value F → Prop
  | Value.null => True
  | Value.bool _ => True
  | Value.num _ => True
  | Value.str s => validUTF8 s = true
  | Value.arr xs => CanonicalList xs
  | Value.obj fs => KeysSorted fs ∧ CanonicalFields fs
  | Value.int _ => False
  | Value.record _ => False
  | Value.chan => False
/-- All items canonical. -/
def CanonicalList : List (Value F) → Prop
  | [] => True
  | x :: t => Canonical x ∧ CanonicalList t
/-- All keys valid UTF-8 and all member values canonical. -/
def CanonicalFields : List (GoString × Value F) → Prop
  | [] => True
  | (k, v) :: t => validUTF8 k = true ∧ Canonical v ∧ CanonicalFields t
end

/-- A field name the model covers: an upper-case ASCII letter followed by ASCII
letters, digits and underscores. -/
def exportedName : List Char → Bool
  | [] => false
  | c :: t =>
    decide (65 ≤ c.toNat ∧ c.toNat ≤ 90) &&
      t.all (fun d => decide ((65 ≤ d.toNat ∧ d.toNat ≤ 90) ∨ (97 ≤ d.toNat ∧ d.toNat ≤ 122) ∨
        (48 ≤ d.toNat ∧ d.toNat ≤ 57) ∨ d = '_'))

/-- The names of the fields. -/
def fieldNames : Fields F → List (List Char)
  | [] => []
  | (n, _, _) :: t => n :: fieldNames t

mutual
/-- The value is a value of the given type that survives JSON: loaded into a
zero-valued variable of that type it comes back as it was. -/
def Typed : GoType → Value F → Prop
  | ty, Value.null => ty = GoType.iface ∨ ty = GoType.slice ∨ ty = GoType.map
  | ty, Value.bool _ => ty = GoType.iface ∨ ty = GoType.bool
  | ty, Value.num _ => ty = GoType.iface
  | ty, Value.int n => ty = GoType.int ∧ -(2 : Int) ^ 63 ≤ n ∧ n < (2 : Int) ^ 63
  | ty, Value.str s => (ty = GoType.iface ∨ ty = GoType.string) ∧ validUTF8 s = true
  | ty, Value.arr xs => (ty = GoType.iface ∨ ty = GoType.slice) ∧ CanonicalList xs
  | ty, Value.obj fs => (ty = GoType.iface ∨ ty = GoType.map) ∧ KeysSorted fs ∧ CanonicalFields fs
  | ty, Value.record fs =>
    ty = GoType.struct ∧ (fieldNames fs).Nodup ∧ (∀ n ∈ fieldNames fs, exportedName n = true) ∧
      TypedFields fs
  | _, Value.chan => False
/-- Every field holds a value of its type that survives JSON. -/
def TypedFields : Fields F → Prop
  | [] => True
  | (_, ty, v) :: t => Typed ty v ∧ TypedFields t
end

mutual
/-- The zero value of a variable of the given type; for a struct type, of the
struct type the given value has. -/
def zeroLike : GoType → Value F → Value F
  | _, Value.record fs => Value.record (zeroFields fs)
  | GoType.bool, _ => Value.bool false
  | GoType.int, _ => Value.int 0
  | GoType.string, _ => Value.str []
  | _, _ => Value.null
/-- The fields with their zero values. -/
def zeroFields : Fields F → Fields F
  | [] => []
  | (n, ty, v) :: t => (n, ty, zeroLike ty v) :: zeroFields t
end

mutual
/-- Whether `json.Marshal` accepts the value. -/
def serializable : Value F → Bool
  | Value.arr xs => serializableList xs
  | Value.obj fs => serializableMembers fs
  | Value.record fs => serializableFields fs
  | Value.chan => false
  | _ => true
/-- Whether `json.Marshal` accepts every item. -/
def serializableList : List (Value F) → Bool
  | [] => true
  | x :: t => serializable x && serializableList t
/-- Whether `json.Marshal` accepts every member value. -/
def serializableMembers : List (GoString × Value F) → Bool
  | [] => true
  | (_, v) :: t => serializable v && serializableMembers t
/-- Whether `json.Marshal` accepts every field. -/
def serializableFields : Fields F → Bool
  | [] => true
  | (_, _, v) :: t => serializable v && serializableFields t
end

/-! ## encoding/json: the encoder -/

/-- Lower-case hexadecimal digit. -/
def hexDigit (n : Nat) : Char :=
  if n < 10 then Char.ofNat (48 + n) else Char.ofNat (87 + n)

/-- How the encoder writes one character of a string.  Go releases differ in
which control characters get a one-letter escape; every form decodes to the same
character. -/
def escapeChar (c : Char) : List Char :=
  if c = '"' then ['\\', '"']
  else if c = '\\' then ['\\', '\\']
  else if c = '\n' then ['\\', 'n']
  else if c = '\r' then ['\\', 'r']
  else if c = '\t' then ['\\', 't']
  else if c.toNat < 32 ∨ c = '<' ∨ c = '>' ∨ c = '&' then
    ['\\', 'u', '0', '0', hexDigit (c.toNat / 16), hexDigit (c.toNat % 16)]
  else if c = Char.ofNat 0x2028 then ['\\', 'u', '2', '0', '2', '8']
  else if c = Char.ofNat 0x2029 then ['\\', 'u', '2', '0', '2', '9']
  else [c]

/-- The characters of a string, escaped, up to and including the closing quote.
A byte that is not UTF-8 is written as the escape of U+FFFD. -/
def encodeStringBody : GoString → List Char
  | [] => ['"']
  | GoChar.rune c :: t => escapeChar c ++ encodeStringBody t
  | GoChar.bad _ :: t => ['\\', 'u', 'f', 'f', 'f', 'd'] ++ encodeStringBody t

/-- A quoted string. -/
def encodeString (s : GoString) : List Char := '"' :: encodeStringBody s

/-- A quoted field name. -/
def encodeName (n : List Char) : List Char := encodeString (n.map GoChar.rune)

mutual
/-- The text `json.Marshal` produces for a serializable value. -/
def encodeValue [GoLib F] : Value F → List Char
  | Value.null => ['n', 'u', 'l', 'l']
  | Value.bool true => ['t', 'r', 'u', 'e']
  | Value.bool false => ['f', 'a', 'l', 's', 'e']
  | Value.num x => GoLib.formatFloat x
  | Value.int n => encodeInt n
  | Value.str s => encodeString s
  | Value.arr [] => ['[', ']']
  | Value.arr (x :: t) => '[' :: (encodeValue x ++ encodeItems t)
  | Value.obj [] => ['\x7b', '\x7d']
  | Value.obj ((k, v) :: t) =>
    '\x7b' :: (encodeString k ++ ':' :: (encodeValue v ++ encodeMembers t))
  | Value.record [] => ['\x7b', '\x7d']
  | Value.record ((n, _, v) :: t) =>
    '\x7b' :: (encodeName n ++ ':' :: (encodeValue v ++ encodeFields t))
  | Value.chan => []
/-- The items after the first, each preceded by a comma, and the closing bracket. -/
def encodeItems [GoLib F] : List (Value F) → List Char
  | [] => [']']
  | x :: t => ',' :: (encodeValue x ++ encodeItems t)
/-- The members after the first, each preceded by a comma, and the closing brace. -/
def encodeMembers [GoLib F] : List (GoString × Value F) → List Char
  | [] => ['\x7d']
  | (k, v) :: t => ',' :: (encodeString k ++ ':' :: (encodeValue v ++ encodeMembers t))
/-- The fields after the first, each preceded by a comma, and the closing brace. -/
def encodeFields [GoLib F] : Fields F → List Char
  | [] => ['\x7d']
  | (n, _, v) :: t => ',' :: (encodeName n ++ ':' :: (encodeValue v ++ encodeFields t))
end

/-- The function `json.Marshal`. -/
def jsonMarshal [GoLib F] (v : Value F) : Except GoError (List Char) :=
  if serializable v then Except.ok (encodeValue v) else Except.error GoError.unsupportedTypeError

mutual
/-- The syntax tree of the text `json.Marshal` produces. -/
def toJson [GoLib F] : Value F → Json
  | Value.null => Json.null
  | Value.bool b => Json.bool b
  | Value.num x => Json.number (GoLib.formatFloat x)
  | Value.int n => Json.number (encodeInt n)
  | Value.str s => Json.string (coerceUTF8 s)
  | Value.arr xs => Json.array (toJsonList xs)
  | Value.obj fs => Json.object (toJsonMembers fs)
  | Value.record fs => Json.object (toJsonFields fs)
  | Value.chan => Json.null
/-- The syntax trees of the items. -/
def toJsonList [GoLib F] : List (Value F) → List Json
  | [] => []
  | x :: t => toJson x :: toJsonList t
/-- The syntax trees of the members. -/
def toJsonMembers [GoLib F] : List (GoString × Value F) → List (List Char × Json)
  | [] => []
  | (k, v) :: t => (coerceUTF8 k, toJson v) :: toJsonMembers t
/-- The syntax trees of the fields. -/
def toJsonFields [GoLib F] : Fields F → List (List Char × Json)
  | [] => []
  | (n, _, v) :: t => (n, toJson v) :: toJsonFields t
end

/-! ## encoding/json: storing what was read -/

/-- The first field with exactly the given name, with the fields before and
after it. -/
def splitExact (k : List Char) : Fields F → Option (Fields F × (List Char × GoType × Value F) × Fields F)
  | [] => none
  | f :: t =>
    if f.1 = k then some ([], f, t)
    else
      match splitExact k t with
      | some (p, g, s) => some (f :: p, g, s)
      | none => none

/-- The first field whose name equals the given one under `strings.EqualFold`,
with the fields before and after it. -/
def splitFold [GoLib F] (k : List Char) :
    Fields F → Option (Fields F × (List Char × GoType × Value F) × Fields F)
  | [] => none
  | f :: t =>
    if GoLib.equalFold (F := F) f.1 k = true then some ([], f, t)
    else
      match splitFold k t with
      | some (p, g, s) => some (f :: p, g, s)
      | none => none

/-- The field a member name selects: the one with exactly that name, else the
first whose name matches it regardless of case. -/
def findField [GoLib F] (k : List Char) (fs : Fields F) :
    Option (Fields F × (List Char × GoType × Value F) × Fields F) :=
  match splitExact k fs with
  | some r => some r
  | none => splitFold k fs

/-- The error for a JSON value of the given kind that cannot go into the
variable. -/
def typeError (kind : String) : GoError := GoError.unmarshalTypeError kind

/-- The error for a number that does not fit the variable. -/
def numberError (tok : List Char) : GoError :=
  GoError.unmarshalTypeError (String.mk ("number ".toList ++ tok))

mutual
/-- Stores a JSON value into a variable of the given type whose present value
is `cur`, and returns the new value of the variable.  A `null` clears an
interface, map or slice and leaves any other variable alone; a value of the
wrong kind, and a number that does not fit, is an error. -/
def storeJson [GoLib F] : GoType → Json → Value F → Except GoError (Value F)
  | ty, Json.null, cur =>
    match ty with
    | GoType.iface => Except.ok Value.null
    | GoType.slice => Except.ok Value.null
    | GoType.map => Except.ok Value.null
    | _ => Except.ok cur
  | ty, Json.bool b, _ =>
    match ty with
    | GoType.iface => Except.ok (Value.bool b)
    | GoType.bool => Except.ok (Value.bool b)
    | _ => Except.error (typeError "bool")
  | ty, Json.number tok, _ =>
    match ty with
    | GoType.iface =>
      match GoLib.parseFloat (F := F) tok with
      | some x => Except.ok (Value.num x)
      | none => Except.error (numberError tok)
    | GoType.int =>
      match parseInt tok with
      | some n => Except.ok (Value.int n)
      | none => Except.error (numberError tok)
    | _ => Except.error (typeError "number")
  | ty, Json.string s, _ =>
    match ty with
    | GoType.iface => Except.ok (Value.str (s.map GoChar.rune))
    | GoType.string => Except.ok (Value.str (s.map GoChar.rune))
    | _ => Except.error (typeError "string")
  | ty, Json.array items, _ =>
    match ty with
    | GoType.iface =>
      match storeItems items with
      | Except.ok xs => Except.ok (Value.arr xs)
      | Except.error e => Except.error e
    | GoType.slice =>
      match storeItems items with
      | Except.ok xs => Except.ok (Value.arr xs)
      | Except.error e => Except.error e
    | _ => Except.error (typeError "array")
  | ty, Json.object members, cur =>
    match ty with
    | GoType.iface =>
      match storeMembers members [] with
      | Except.ok m => Except.ok (Value.obj m)
      | Except.error e => Except.error e
    | GoType.map =>
      match storeMembers members cur.toMap with
      | Except.ok m => Except.ok (Value.obj m)
      | Except.error e => Except.error e
    | GoType.struct =>
      match storeFields members cur.toFields with
      | Except.ok fs => Except.ok (Value.record fs)
      | Except.error e => Except.error e
    | _ => Except.error (typeError "object")
/-- Stores the items of an array, each into a fresh `interface{}`. -/
def storeItems [GoLib F] : List Json → Except GoError (List (Value F))
  | [] => Except.ok []
  | j :: t =>
    match storeJson GoType.iface j Value.null with
    | Except.error e => Except.error e
    | Except.ok v =>
      match storeItems t with
      | Except.error e => Except.error e
      | Except.ok vs => Except.ok (v :: vs)
/-- Stores the members of an object into a map, in the order of the text: each
value goes into a fresh `interface{}` and is assigned to its key. -/
def storeMembers [GoLib F] : List (List Char × Json) → GoMap F → Except GoError (GoMap F)
  | [], acc => Except.ok acc
  | (k, j) :: t, acc =>
    match storeJson GoType.iface j Value.null with
    | Except.error e => Except.error e
    | Except.ok v => storeMembers t (mapSet acc (k.map GoChar.rune) v)
/-- Stores the members of an object into the fields of a struct, in the order
of the text; a member that selects no field is skipped. -/
def storeFields [GoLib F] : List (List Char × Json) → Fields F → Except GoError (Fields F)
  | [], fs => Except.ok fs
  | (k, j) :: t, fs =>
    match findField k fs with
    | none => storeFields t fs
    | some (pre, (n, ty, cur), post) =>
      match storeJson ty j cur with
      | Except.error e => Except.error e
      | Except.ok v => storeFields t (pre ++ (n, ty, v) :: post)
end

/-- The variable a `Decode` call writes through: its type and present value. -/
structure Target (F : Type) where
  ty : GoType
  cur : Value F

/-- The call `json.NewDecoder(r).Decode(&value)` on a stream holding `content`,
where `value` is the `interface{}` in which `read` received a pointer to the
variable: the new value of the variable.  A JSON `null` only clears that
`interface{}` and leaves the variable behind the pointer as it was. -/
def jsonDecode [GoLib F] (content : List Char) (value : Target F) : Except GoError (Value F) :=
  match readJson content with
  | Except.error e => Except.error e
  | Except.ok Json.null => Except.ok value.cur
  | Except.ok j => storeJson value.ty j value.cur

/-! ## A stand-in for float64 -/

/-- A small number type for the examples: the whole numbers up to `2 ^ 53` in
absolute value.  It is not `float64`; it shows that what is assumed of the
library (`Lawful`) can be met, and the examples hold no numbers. -/
structure SmallInt where
  val : Int
  small : val.natAbs ≤ 2 ^ 53

/-- ASCII lower case. -/
def lowerASCII (c : Char) : Char :=
  if 65 ≤ c.toNat ∧ c.toNat ≤ 90 then Char.ofNat (c.toNat + 32) else c

/-- The library over the stand-in: a number is written in decimal, and is read
when it is written so and lies within the range. -/
instance : GoLib SmallInt where
  parseFloat tok :=
    match readInt tok with
    | some n => if h : n.natAbs ≤ 2 ^ 53 ∧ encodeInt n = tok then some ⟨n, h.1⟩ else none
    | none => none
  formatFloat x := encodeInt x.val
  equalFold a b := decide (a.map lowerASCII = b.map lowerASCII)

/-! ## os, os/user, io/ioutil, path -/

/-- What a path names: a regular file with its content, a directory in which
the process may create entries, a directory in which it may not, or something
the process may not access at all. -/
inductive Node where
  | file (content : List Char)
  | dir
  | readOnlyDir
  | noAccess
  deriving DecidableEq

/-- A filesystem: what each path names, if anything. -/
abbrev FS := String → Option Node

/-- The system calls the package makes. -/
inductive Syscall where
  | openFile (path : String)
  | create (path : String)
  | writeFile (path : String)
  | stat (path : String)
  | mkdir (path : String)
  deriving DecidableEq

/-- The world the package runs in: the home directory `user.Current()` reports
(or its failure), the filesystem, and the system calls made so far. -/
structure World where
  home : Option String
  fs : FS
  calls : List Syscall

/-- An open file (`*os.File`). -/
structure File where
  name : String
  deriving DecidableEq

/-- Records a system call. -/
def World.log (w : World) (c : Syscall) : World :=
  { w with calls := w.calls ++ [c] }

/-- Replaces what a path names. -/
def World.put (w : World) (path : String) (n : Node) : World :=
  { w with fs := fun p => if p = path then some n else w.fs p }

/-- The function `path.Join` for two elements (the result is not cleaned). -/
def pathJoin (a b : String) : String :=
  if a = "" then b else if b = "" then a else a ++ "/" ++ b

/-- The path without its last element and the slashes before it. -/
def dirOfChars (p : List Char) : List Char :=
  match ((p.reverse.dropWhile (fun c => c != '/')).dropWhile (fun c => c == '/')).reverse with
  | [] => if p.head? = some '/' then ['/'] else ['.']
  | d => d

/-- The directory a path lies in. -/
def dirOf (p : String) : String := String.mk (dirOfChars p.toList)

/-- Why the lookup of an absent path fails: the directory it lies in is not a
directory or may not be accessed, or else the path does not exist. -/
def lookupError (w : World) (path : String) : Errno :=
  match w.fs (dirOf path) with
  | some (Node.file _) => Errno.ENOTDIR
  | some Node.noAccess => Errno.EACCES
  | _ => Errno.ENOENT

/-- Why nothing can be created at an absent path, if so: the directory it lies
in is missing, is not a directory, or may not be written or accessed. -/
def createError (w : World) (path : String) : Option Errno :=
  match w.fs (dirOf path) with
  | some Node.dir => none
  | some (Node.file _) => some Errno.ENOTDIR
  | some Node.readOnlyDir => some Errno.EACCES
  | some Node.noAccess => some Errno.EACCES
  | none => some Errno.ENOENT

/-- The function `user.Current`, reduced to the home directory. -/
def userCurrent (w : World) : Except GoError String :=
  match w.home with
  | some h => Except.ok h
  | none => Except.error GoError.userError

/-- The call `os.OpenFile(path, os.O_RDWR, 0666)`. -/
def osOpenFile (w : World) (path : String) : Except GoError File × World :=
  match w.fs path with
  | some (Node.file _) => (Except.ok ⟨path⟩, w.log (Syscall.openFile path))
  | some Node.dir => (Except.error (GoError.pathError "open" path Errno.EISDIR), w.log (Syscall.openFile path))
  | some Node.readOnlyDir => (Except.error (GoError.pathError "open" path Errno.EISDIR), w.log (Syscall.openFile path))
  | some Node.noAccess => (Except.error (GoError.pathError "open" path Errno.EACCES), w.log (Syscall.openFile path))
  | none => (Except.error (GoError.pathError "open" path (lookupError w path)), w.log (Syscall.openFile path))

/-- The call `os.Create(path)`: opens read-write, creating the file if absent
and truncating it if present. -/
def osCreate (w : World) (path : String) : Except GoError File × World :=
  match w.fs path with
  | some (Node.file _) => (Except.ok ⟨path⟩, (w.log (Syscall.create path)).put path (Node.file []))
  | some Node.dir => (Except.error (GoError.pathError "open" path Errno.EISDIR), w.log (Syscall.create path))
  | some Node.readOnlyDir => (Except.error (GoError.pathError "open" path Errno.EISDIR), w.log (Syscall.create path))
  | some Node.noAccess => (Except.error (GoError.pathError "open" path Errno.EACCES), w.log (Syscall.create path))
  | none =>
    match createError w path with
    | some errno => (Except.error (GoError.pathError "open" path errno), w.log (Syscall.create path))
    | none => (Except.ok ⟨path⟩, (w.log (Syscall.create path)).put path (Node.file []))

/-- The call `ioutil.WriteFile(path, content, os.ModePerm)`: replaces the whole
content, creating the file if absent. -/
def ioutilWriteFile (w : World) (path : String) (content : List Char) : Option GoError × World :=
  match w.fs path with
  | some (Node.file _) => (none, (w.log (Syscall.writeFile path)).put path (Node.file content))
  | some Node.dir => (some (GoError.pathError "open" path Errno.EISDIR), w.log (Syscall.writeFile path))
  | some Node.readOnlyDir => (some (GoError.pathError "open" path Errno.EISDIR), w.log (Syscall.writeFile path))
  | some Node.noAccess => (some (GoError.pathError "open" path Errno.EACCES), w.log (Syscall.writeFile path))
  | none =>
    match createError w path with
    | some errno => (some (GoError.pathError "open" path errno), w.log (Syscall.writeFile path))
    | none => (none, (w.log (Syscall.writeFile path)).put path (Node.file content))

/-- The call `os.Stat(path)`, reduced to its error. -/
def osStat (w : World) (path : String) : Option GoError × World :=
  match w.fs path with
  | some Node.noAccess => (some (GoError.pathError "stat" path Errno.EACCES), w.log (Syscall.stat path))
  | some _ => (none, w.log (Syscall.stat path))
  | none => (some (GoError.pathError "stat" path (lookupError w path)), w.log (Syscall.stat path))

/-- The call `os.Mkdir(path, os.ModePerm)`. -/
def osMkdir (w : World) (path : String) : Option GoError × World :=
  match w.fs path with
  | some Node.noAccess => (some (GoError.pathError "mkdir" path Errno.EACCES), w.log (Syscall.mkdir path))
  | some _ => (some (GoError.pathError "mkdir" path Errno.EEXIST), w.log (Syscall.mkdir path))
  | none =>
    match createError w path with
    | some errno => (some (GoError.pathError "mkdir" path errno), w.log (Syscall.mkdir path))
    | none => (none, (w.log (Syscall.mkdir path)).put path Node.dir)

/-- What a reader over an open file yields from its start. -/
def fileContent (w : World) (f : File) : List Char :=
  match w.fs f.name with
  | some (Node.file c) => c
  | _ => []

/-! ## localstore.go -/

/-- Lines 47-50: `type JsonStore struct`. -/
structure JsonStore where
  path : String
  defaultStoreName : String
  deriving DecidableEq

/-- Lines 17-45: `func New`. -/
def New (w : World) (appDir defaultStoreName : String) : Except GoError JsonStore × World :=
  match userCurrent w with
  | Except.error err => (Except.error err, w)
  | Except.ok homeDir =>
    let dirPath := pathJoin homeDir appDir
    match osStat w dirPath with
    | (some err, w1) =>
      if osIsNotExist err then
        match osMkdir w1 dirPath with
        | (some err2, w2) => (Except.error err2, w2)
        | (none, w2) => (Except.ok ⟨dirPath, defaultStoreName⟩, w2)
      else (Except.error err, w1)
    | (none, w1) => (Except.ok ⟨dirPath, defaultStoreName⟩, w1)

/-- Lines 125-127: `func (js JsonStore) getPath`. -/
def JsonStore.getPath (js : JsonStore) (name : String) : String :=
  pathJoin js.path (name ++ ".json")

/-- Lines 129-145: `func getFile`. -/
def getFile (w : World) (path : String) : Except GoError File × World :=
  match osOpenFile w path with
  | (Except.error err, w1) =>
    if err.isPathError then osCreate w1 path
    else (Except.error err, w1)
  | (Except.ok f, w1) => (Except.ok f, w1)

/-- Lines 147-157: `func read`.  `value` is the variable the caller passed a
pointer to; the result is the error, if any, and the value of that variable
after the call; the deferred `f.Close()` changes neither.  After `io.EOF` and
after an error of `getFile` nothing has been stored and the variable is as it
was.  After an `UnmarshalTypeError` the decoder may have stored the members
that did fit; the variable is given as it was, the package does not read it
after such an error, and no theorem below speaks of it. -/
def read [GoLib F] (w : World) (path : String) (value : Target F) :
    (Option GoError × Value F) × World :=
  match getFile w path with
  | (Except.error err, w1) => ((some err, value.cur), w1)
  | (Except.ok f, w1) =>
    match jsonDecode (fileContent w1 f) value with
    | Except.error err => ((some err, value.cur), w1)
    | Except.ok value1 => ((none, value1), w1)

/-- Lines 159-168: `func write`. -/
def write [GoLib F] (w : World) (path : String) (value : Value F) : Option GoError × World :=
  match jsonMarshal value with
  | Except.error err => (some err, w)
  | Except.ok content => ioutilWriteFile w path content

/-- Lines 53-56: `func (js JsonStore) Load`. -/
def JsonStore.Load [GoLib F] (js : JsonStore) (w : World) (storeName : String)
    (value : Target F) : (Option GoError × Value F) × World :=
  read w (js.getPath storeName) value

/-- Lines 59-62: `func (js JsonStore) LoadDefault`. -/
def JsonStore.LoadDefault [GoLib F] (js : JsonStore) (w : World) (value : Target F) :
    (Option GoError × Value F) × World :=
  js.Load w js.defaultStoreName value

/-- Lines 65-68: `func (js JsonStore) Store`. -/
def JsonStore.Store [GoLib F] (js : JsonStore) (w : World) (storeName : String)
    (value : Value F) : Option GoError × World :=
  write w (js.getPath storeName) value

/-- Lines 71-74: `func (js JsonStore) StoreDefault`. -/
def JsonStore.StoreDefault [GoLib F] (js : JsonStore) (w : World) (value : Value F) :
    Option GoError × World :=
  js.Store w js.defaultStoreName value

/-- Lines 77-95: `func (js JsonStore) Get`.  The first component is the
returned `interface{}` (`Value.null` is Go's `nil`). -/
def JsonStore.Get [GoLib F] (js : JsonStore) (w : World) (storeName : String) (key : GoString) :
    (Value F × Option GoError) × World :=
  let m : Value F := Value.obj []
  match read w (js.getPath storeName) ⟨GoType.map, m⟩ with
  | ((some err, _), w1) => ((Value.null, some err), w1)
  | ((none, m1), w1) =>
    match mapGet m1.toMap key with
    | some value => ((value, none), w1)
    | none => ((Value.null, some ErrNotFound), w1)

/-- Lines 98-100: `func (js JsonStore) GetDefault`. -/
def JsonStore.GetDefault [GoLib F] (js : JsonStore) (w : World) (key : GoString) :
    (Value F × Option GoError) × World :=
  js.Get w js.defaultStoreName key

/-- Lines 103-118: `func (js JsonStore) Set`. -/
def JsonStore.Set [GoLib F] (js : JsonStore) (w : World) (storeName : String) (key : GoString)
    (value : Value F) : Option GoError × World :=
  let m : Value F := Value.obj []
  match read w (js.getPath storeName) ⟨GoType.map, m⟩ with
  | ((some err, m1), w1) =>
    if err ≠ io_EOF then (some err, w1)
    else write w1 (js.getPath storeName) (Value.obj (mapSet m1.toMap key value))
  | ((none, m1), w1) => write w1 (js.getPath storeName) (Value.obj (mapSet m1.toMap key value))

/-- Lines 121-123: `func (js JsonStore) SetDefault`. -/
def JsonStore.SetDefault [GoLib F] (js : JsonStore) (w : World) (key : GoString)
    (value : Value F) : Option GoError × World :=
  js.Set w js.defaultStoreName key value

/-! ## Concrete worlds -/

/-- A world with a home directory and nothing in it. -/
def freshWorld : World :=
  ⟨some "/home/gopher",
    fun p => if p = "/" ∨ p = "/home" ∨ p = "/home/gopher" then some Node.dir else none, []⟩

/-- The store the test suite works with. -/
def testStore : JsonStore := ⟨"/home/gopher/.testapp", "config"⟩

/-- The world after `New(".testapp", "config")`. -/
def storeWorld : World := (New freshWorld ".testapp" "config").2

/-- A world in which the default document of `testStore` names the given node. -/
def worldWith (n : Node) : World :=
  ⟨some "/home/gopher",
    fun p =>
      if p = "/home/gopher/.testapp/config.json" then some n
      else if p = "/" ∨ p = "/home" ∨ p = "/home/gopher" ∨ p = "/home/gopher/.testapp" then
        some Node.dir
      else none,
    []⟩

/-- The world of the test suite when `TestLoad` starts: the default document
holds what `TestSet` wrote. -/
def helloWorld : World := worldWith (Node.file "\x7b\"hello\":\"world\"\x7d".toList)

/-- A world in which `testStore` has a subdirectory where a document file would be. -/
def worldWithDir : World := worldWith Node.dir

/-- The word `encoding/json` uses for a value that cannot go into a map, if
there is one. -/
def nonObjectKind : Value F → Option String
  | Value.arr _ => some "array"
  | Value.str _ => some "string"
  | Value.num _ => some "number"
  | Value.bool _ => some "bool"
  | _ => none

/-- The struct of the test suite: `sampleConfig{Name, Host, Port}`. -/
def sampleConfig (name host : String) (port : Int) : Value SmallInt :=
  Value.record [("Name".toList, GoType.string, Value.str (goStr name)),
    ("Host".toList, GoType.string, Value.str (goStr host)),
    ("Port".toList, GoType.int, Value.int port)]

/-- A key that is not UTF-8: the single byte 0xFF. -/
def badKey : GoString := [GoChar.bad ⟨0xFF, by decide⟩]

/-! ## Lemmas: maps and key order -/

theorem char_toNat_lt (c : Char) : c.toNat < 0x110000 := by
  have h := c.valid
  simp only [UInt32.isValidChar, Nat.isValidChar] at h
  unfold Char.toNat
  rcases h with h | h
  · omega
  · omega

theorem char_toNat_inj (c d : Char) (h : c.toNat = d.toNat) : c = d := by
  apply Char.ext
  apply UInt32.ext
  exact h

theorem rank_inj (a b : GoChar) (h : a.rank = b.rank) : a = b := by
  cases a with
  | rune c =>
    cases b with
    | rune d =>
      have hc := char_toNat_lt c
      have hd := char_toNat_lt d
      simp only [GoChar.rank] at h
      congr 1
      apply char_toNat_inj
      split at h <;> split at h <;> omega
    | bad b =>
      have hc := char_toNat_lt c
      have hb := b.bad
      simp only [GoChar.rank] at h
      split at h <;> split at h <;> omega
  | bad a =>
    cases b with
    | rune d =>
      have hd := char_toNat_lt d
      have ha := a.bad
      simp only [GoChar.rank] at h
      split at h <;> split at h <;> omega
    | bad b =>
      have ha := a.bad
      have hb := b.bad
      simp only [GoChar.rank] at h
      have : a.val = b.val := by split at h <;> split at h <;> omega
      cases a; cases b
      simp only at this
      subst this
      rfl

theorem map_rank_inj (a b : GoString) (h : a.map GoChar.rank = b.map GoChar.rank) : a = b := by
  induction a generalizing b with
  | nil => cases b with
    | nil => rfl
    | cons y t => simp at h
  | cons x s ih =>
    cases b with
    | nil => simp at h
    | cons y t =>
      simp only [List.map_cons, List.cons.injEq] at h
      rw [rank_inj x y h.1, ih t h.2]

theorem keyLt_irrefl (a : GoString) : ¬ keyLt a a := fun h => lt_irrefl (a.map GoChar.rank) h

theorem keyLt_trans {a b c : GoString} (h1 : keyLt a b) (h2 : keyLt b c) : keyLt a c :=
  lt_trans (α := List Nat) h1 h2

theorem keyLt_asymm {a b : GoString} (h1 : keyLt a b) : ¬ keyLt b a :=
  fun h2 => lt_asymm (α := List Nat) h1 h2

theorem keyLt_total {a b : GoString} (h1 : ¬ keyLt a b) (h2 : a ≠ b) : keyLt b a := by
  rcases lt_trichotomy (a.map GoChar.rank) (b.map GoChar.rank) with h | h | h
  · exact absurd h h1
  · exact absurd (map_rank_inj a b h) h2
  · exact h

theorem mapGet_mapSet_same (m : GoMap F) (k : GoString) (v : Value F) :
    mapGet (mapSet m k v) k = some v := by
  induction m with
  | nil => simp [mapSet, mapGet]
  | cons p t ih =>
    obtain ⟨k0, v0⟩ := p
    unfold mapSet
    split
    · simp [mapGet]
    · split
      · simp [mapGet]
      · rename_i h _
        simp [mapGet, h, ih]

theorem mapGet_mapSet_other (m : GoMap F) (k k2 : GoString) (v : Value F) (h : k2 ≠ k) :
    mapGet (mapSet m k v) k2 = mapGet m k2 := by
  induction m with
  | nil => simp [mapSet, mapGet, h]
  | cons p t ih =>
    obtain ⟨k0, v0⟩ := p
    unfold mapSet
    split
    · rename_i hk
      subst hk
      simp [mapGet, h]
    · split
      · simp [mapGet, h]
      · simp [mapGet, ih]

theorem mem_mapSet (m : GoMap F) (k : GoString) (v : Value F) (p : GoString × Value F)
    (hp : p ∈ mapSet m k v) : p = (k, v) ∨ p ∈ m := by
  induction m with
  | nil => simpa [mapSet] using hp
  | cons q t ih =>
    obtain ⟨k0, v0⟩ := q
    unfold mapSet at hp
    split at hp
    · simp only [List.mem_cons] at hp ⊢
      tauto
    · split at hp
      · simp only [List.mem_cons] at hp ⊢
        tauto
      · simp only [List.mem_cons] at hp ⊢
        rcases hp with hp | hp
        · tauto
        · have := ih hp
          tauto

theorem keysSorted_mapSet (m : GoMap F) (k : GoString) (v : Value F) (hm : KeysSorted m) :
    KeysSorted (mapSet m k v) := by
  induction m with
  | nil => simp [mapSet, KeysSorted]
  | cons q t ih =>
    obtain ⟨k0, v0⟩ := q
    obtain ⟨h1, h2⟩ := hm
    unfold mapSet
    split
    · rename_i hk
      subst hk
      exact ⟨h1, h2⟩
    · split
      · rename_i hlt
        refine ⟨?_, h1, h2⟩
        intro p hp
        rcases List.mem_cons.1 hp with hp | hp
        · subst hp; exact hlt
        · exact keyLt_trans hlt (h1 p hp)
      · rename_i hne hnlt
        refine ⟨?_, ih h2⟩
        intro p hp
        rcases mem_mapSet t k v p hp with hp | hp
        · subst hp
          exact keyLt_total hnlt hne
        · exact h1 p hp

theorem mapSet_append (m : GoMap F) (k : GoString) (v : Value F) (h : ∀ p ∈ m, keyLt p.1 k) :
    mapSet m k v = m ++ [(k, v)] := by
  induction m with
  | nil => rfl
  | cons q t ih =>
    obtain ⟨k0, v0⟩ := q
    have h0 : keyLt k0 k := h (k0, v0) (List.mem_cons_self _ _)
    have hne : k ≠ k0 := by
      intro e; subst e; exact keyLt_irrefl _ h0
    unfold mapSet
    rw [if_neg hne, if_neg (keyLt_asymm h0), ih (fun p hp => h p (List.mem_cons_of_mem _ hp))]
    rfl

theorem keysSorted_append_singleton (m : GoMap F) (k : GoString) (v : Value F) (t : GoMap F)
    (h : KeysSorted (m ++ (k, v) :: t)) : ∀ p ∈ m, keyLt p.1 k := by
  induction m with
  | nil => intro p hp; cases hp
  | cons q s ih =>
    obtain ⟨k0, v0⟩ := q
    obtain ⟨h1, h2⟩ := h
    intro p hp
    rcases List.mem_cons.1 hp with hp | hp
    · subst hp
      exact h1 (k, v) (by simp)
    · exact ih h2 p hp

theorem canonicalList_append (a b : List (Value F)) (ha : CanonicalList a)
    (hb : CanonicalList b) : CanonicalList (a ++ b) := by
  induction a with
  | nil => simpa using hb
  | cons x t ih =>
    simp only [CanonicalList, List.cons_append] at ha ⊢
    exact ⟨ha.1, ih ha.2⟩

theorem canonicalFields_mapSet (m : GoMap F) (k : GoString) (v : Value F)
    (hm : CanonicalFields m) (hk : validUTF8 k = true) (hv : Canonical v) :
    CanonicalFields (mapSet m k v) := by
  induction m with
  | nil => simp [mapSet, CanonicalFields, hv, hk]
  | cons q t ih =>
    obtain ⟨k0, v0⟩ := q
    simp only [CanonicalFields] at hm
    unfold mapSet
    split
    · simp [CanonicalFields, hv, hk, hm.2.2]
    · split
      · simp [CanonicalFields, hv, hk, hm.1, hm.2.1, hm.2.2]
      · simp [CanonicalFields, hm.1, hm.2.1, ih hm.2.2]

theorem canonical_obj_mapSet (m : GoMap F) (k : GoString) (v : Value F) (hs : KeysSorted m)
    (hc : CanonicalFields m) (hk : validUTF8 k = true) (hv : Canonical v) :
    Canonical (Value.obj (mapSet m k v)) := by
  simp only [Canonical]
  exact ⟨keysSorted_mapSet m k v hs, canonicalFields_mapSet m k v hc hk hv⟩

theorem validUTF8_map_rune (s : List Char) : validUTF8 (s.map GoChar.rune) = true := by
  induction s with
  | nil => rfl
  | cons c t ih => simpa [validUTF8] using ih

theorem map_rune_coerce (s : GoString) (h : validUTF8 s = true) :
    (coerceUTF8 s).map GoChar.rune = s := by
  induction s with
  | nil => rfl
  | cons c t ih =>
    cases c with
    | rune c => simp only [validUTF8] at h; simp [coerceUTF8, ih h]
    | bad b => simp [validUTF8] at h

/-! ## Lemmas: numbers -/

theorem digit_facts (d : Nat) (h : d < 10) :
    isDigit (Char.ofNat (48 + d)) = true ∧ (Char.ofNat (48 + d)).toNat - 48 = d ∧
      (d ≠ 0 → Char.ofNat (48 + d) ≠ '0') := by
  interval_cases d <;> decide

theorem isDigit_ne (c d : Char) (hc : isDigit c = true) (hd : isDigit d = false) : c ≠ d := by
  rintro rfl
  simp [hc] at hd

theorem digitsValue_natDigitsAux :
    ∀ (fuel n : Nat) (acc : List Char), n < fuel →
      digitsValue 0 (natDigitsAux fuel n acc) = digitsValue n acc := by
  intro fuel
  induction fuel with
  | zero => intro n acc h; omega
  | succ f ih =>
    intro n acc h
    have hd := digit_facts (n % 10) (Nat.mod_lt _ (by norm_num))
    unfold natDigitsAux
    split
    · rename_i h0
      have : n % 10 = n := by omega
      show digitsValue (0 * 10 + ((Char.ofNat (48 + n % 10)).toNat - 48)) acc = _
      rw [hd.2.1, this, Nat.zero_mul, Nat.zero_add]
    · rename_i h0
      rw [ih (n / 10) _ (by omega)]
      show digitsValue (n / 10 * 10 + ((Char.ofNat (48 + n % 10)).toNat - 48)) acc = _
      rw [hd.2.1]
      congr 1
      omega

theorem natDigitsAux_all :
    ∀ (fuel n : Nat) (acc : List Char), acc.all isDigit = true →
      (natDigitsAux fuel n acc).all isDigit = true := by
  intro fuel
  induction fuel with
  | zero => intro n acc h; simpa [natDigitsAux] using h
  | succ f ih =>
    intro n acc h
    have hd := digit_facts (n % 10) (Nat.mod_lt _ (by norm_num))
    unfold natDigitsAux
    split
    · simp only [List.all_cons, hd.1, h, Bool.and_self]
    · exact ih _ _ (by simp only [List.all_cons, hd.1, h, Bool.and_self])

theorem natDigitsAux_head :
    ∀ (fuel n : Nat) (acc : List Char), n < fuel → 0 < n →
      ∃ c t, natDigitsAux fuel n acc = c :: t ∧ isDigit c = true ∧ c ≠ '0' := by
  intro fuel
  induction fuel with
  | zero => intro n acc h; omega
  | succ f ih =>
    intro n acc h hn
    have hd := digit_facts (n % 10) (Nat.mod_lt _ (by norm_num))
    unfold natDigitsAux
    split
    · rename_i h0
      exact ⟨_, _, rfl, hd.1, hd.2.2 (by omega)⟩
    · rename_i h0
      exact ih (n / 10) _ (by omega) (by omega)

theorem natDigits_all (n : Nat) : (natDigits n).all isDigit = true :=
  natDigitsAux_all _ _ [] rfl

theorem natDigits_value (n : Nat) : digitsValue 0 (natDigits n) = n := by
  unfold natDigits
  rw [digitsValue_natDigitsAux _ _ _ (Nat.lt_succ_self n)]
  rfl

theorem natDigits_head (n : Nat) : ∃ c t, natDigits n = c :: t ∧ isDigit c = true := by
  rcases Nat.eq_zero_or_pos n with h0 | h0
  · subst h0
    exact ⟨'0', [], rfl, by decide⟩
  · obtain ⟨c, t, hct, hc, _⟩ := natDigitsAux_head (n + 1) n [] (by omega) h0
    exact ⟨c, t, hct, hc⟩

theorem spanDigits_append (ds rest : List Char) (hd : ds.all isDigit = true)
    (hr : numEnd rest = true) : spanDigits (ds ++ rest) = (ds, rest) := by
  induction ds with
  | nil =>
    cases rest with
    | nil => rfl
    | cons c t =>
      simp only [numEnd, Bool.and_eq_true, Bool.not_eq_true'] at hr
      simp [spanDigits, hr.1.1.1]
  | cons c t ih =>
    simp only [List.all_cons, Bool.and_eq_true] at hd
    simp [spanDigits, hd.1, ih hd.2]

theorem scanFrac_numEnd (rest : List Char) (hr : numEnd rest = true) :
    scanFrac rest = Except.ok ([], rest) := by
  cases rest with
  | nil => rfl
  | cons c t =>
    simp only [numEnd, Bool.and_eq_true, Bool.not_eq_true', bne_iff_ne, ne_eq] at hr
    simp [scanFrac, hr.1.1.2]

theorem scanExp_numEnd (rest : List Char) (hr : numEnd rest = true) :
    scanExp rest = Except.ok ([], rest) := by
  cases rest with
  | nil => rfl
  | cons c t =>
    simp only [numEnd, Bool.and_eq_true, Bool.not_eq_true', bne_iff_ne, ne_eq] at hr
    simp [scanExp, hr.1.2, hr.2]

theorem scanUnsigned_natDigits (n : Nat) (rest : List Char) (hr : numEnd rest = true) :
    scanUnsigned (natDigits n ++ rest) = Except.ok (natDigits n, rest) := by
  have hall := natDigits_all n
  rcases Nat.eq_zero_or_pos n with h0 | h0
  · subst h0
    show scanUnsigned ('0' :: rest) = _
    simp [scanUnsigned, scanInt, scanFrac_numEnd rest hr, scanExp_numEnd rest hr]
    rfl
  · obtain ⟨c, t, hct, hc, hc0⟩ := natDigitsAux_head (n + 1) n [] (by omega) h0
    unfold natDigits at hall ⊢
    rw [hct] at hall ⊢
    simp only [List.all_cons, Bool.and_eq_true] at hall
    simp only [scanUnsigned, List.cons_append, scanInt, if_neg hc0, hc, if_true,
      spanDigits_append t rest hall.2 hr, scanFrac_numEnd rest hr, scanExp_numEnd rest hr,
      List.append_nil]

theorem scanNumber_encodeInt (n : Int) (rest : List Char) (hr : numEnd rest = true) :
    scanNumber (encodeInt n ++ rest) = Except.ok (encodeInt n, rest) := by
  unfold encodeInt
  split
  · simp only [List.cons_append, scanNumber, if_true, scanUnsigned_natDigits _ rest hr]
  · obtain ⟨c, t, hct, hc⟩ := natDigits_head n.natAbs
    have h := scanUnsigned_natDigits n.natAbs rest hr
    rw [hct] at h ⊢
    rw [List.cons_append] at h ⊢
    simp only [scanNumber, if_neg (isDigit_ne c '-' hc (by decide)), h]

theorem readInt_encodeInt (n : Int) : readInt (encodeInt n) = some n := by
  have hall := natDigits_all n.natAbs
  have hval := natDigits_value n.natAbs
  obtain ⟨c, t, hct, hc⟩ := natDigits_head n.natAbs
  unfold encodeInt
  split
  · rename_i hn
    have hne : natDigits n.natAbs ≠ [] := by rw [hct]; simp
    simp only [readInt, if_true, hne, ne_eq, not_false_eq_true, hall, and_self, hval]
    congr 1
    omega
  · rename_i hn
    rw [hct] at hall hval ⊢
    simp only [readInt, if_neg (isDigit_ne c '-' hc (by decide)), hall, if_true, hval]
    congr 1
    omega

theorem parseInt_encodeInt (n : Int) (h1 : -(2 : Int) ^ 63 ≤ n) (h2 : n < (2 : Int) ^ 63) :
    parseInt (encodeInt n) = some n := by
  simp only [parseInt, readInt_encodeInt, h1, h2, and_self, if_true]

theorem smallInt_lawful : Lawful SmallInt where
  format_scan := fun x rest hr => scanNumber_encodeInt x.val rest hr
  parse_format := fun x => by
    show (match readInt (encodeInt x.val) with
      | some n => if h : n.natAbs ≤ 2 ^ 53 ∧ encodeInt n = encodeInt x.val then
          some (SmallInt.mk n h.1) else none
      | none => none) = some x
    rw [readInt_encodeInt]
    simp only [x.small, and_self, dite_true]

/-! ## Lemmas: strings -/

theorem hexVal_hexDigit (d : Nat) (h : d < 16) : hexVal (hexDigit d) = some d := by
  interval_cases d <;> rfl

theorem readHex4_low (n : Nat) (h : n < 256) (tail : List Char) :
    readHex4 ('0' :: '0' :: hexDigit (n / 16) :: hexDigit (n % 16) :: tail) = Except.ok n := by
  have h1 := hexVal_hexDigit (n / 16) (by omega)
  have h2 := hexVal_hexDigit (n % 16) (Nat.mod_lt _ (by norm_num))
  have h0 : hexVal '0' = some 0 := rfl
  have : ((0 * 16 + 0) * 16 + n / 16) * 16 + n % 16 = n := by omega
  simp only [readHex4, hex4, h0, h1, h2, this]

theorem decodeUnit_low (n : Nat) (h : n < 256) (rest : List Char) :
    decodeUnit n rest = (Char.ofNat n, 0) := by
  unfold decodeUnit
  rw [if_neg]
  omega

theorem parseStringBody_escapeChar (c : Char) (tail : List Char) :
    parseStringBody StrState.normal (escapeChar c ++ tail) =
      consChar c (parseStringBody StrState.normal tail) := by
  have hq : ('\\' : Char) ≠ '"' := by decide
  unfold escapeChar
  split
  · rename_i h; subst h; simp [parseStringBody, unescapeSimple]
  split
  · rename_i h; subst h; simp [parseStringBody, unescapeSimple]
  split
  · rename_i h; subst h; simp [parseStringBody, unescapeSimple]
  split
  · rename_i h; subst h; simp [parseStringBody, unescapeSimple]
  split
  · rename_i h; subst h; simp [parseStringBody, unescapeSimple]
  split
  · rename_i h1 h2 h3 h4 h5 h6
    have hlt : c.toNat < 256 := by
      rcases h6 with h | h | h | h
      · omega
      · subst h; decide
      · subst h; decide
      · subst h; decide
    show parseStringBody StrState.normal
      ('\\' :: 'u' :: '0' :: '0' :: hexDigit (c.toNat / 16) :: hexDigit (c.toNat % 16) :: tail) = _
    simp [parseStringBody, readHex4_low _ hlt, decodeUnit_low _ hlt, Char.ofNat_toNat]
  split
  · rename_i h; subst h; rfl
  split
  · rename_i h; subst h; rfl
  · rename_i h1 h2 h3 h4 h5 h6 h7 h8
    have : ¬ c.toNat < 32 := by
      intro hh; exact h6 (Or.inl hh)
    simp [parseStringBody, h1, h2, this]

theorem parseStringBody_replacement (tail : List Char) :
    parseStringBody StrState.normal (['\\', 'u', 'f', 'f', 'f', 'd'] ++ tail) =
      consChar (Char.ofNat 0xFFFD) (parseStringBody StrState.normal tail) := by
  rfl

theorem parseStringBody_encode (s : GoString) (rest : List Char) :
    parseStringBody StrState.normal (encodeStringBody s ++ rest) =
      Except.ok (coerceUTF8 s, rest) := by
  induction s with
  | nil => simp [encodeStringBody, parseStringBody, coerceUTF8]
  | cons c t ih =>
    cases c with
    | rune c =>
      simp only [encodeStringBody, List.append_assoc, coerceUTF8]
      rw [parseStringBody_escapeChar, ih]
      rfl
    | bad b =>
      simp only [encodeStringBody, List.append_assoc, coerceUTF8]
      rw [parseStringBody_replacement, ih]
      rfl

theorem coerceUTF8_map_rune (s : List Char) : coerceUTF8 (s.map GoChar.rune) = s := by
  induction s with
  | nil => rfl
  | cons c t ih => simp [coerceUTF8, ih]

theorem skipWs_cons (c : Char) (t : List Char) (h : isSpace c = false) :
    skipWs (c :: t) = c :: t := by
  simp [skipWs, h]

theorem isSpace_digit (c : Char) (hc : isDigit c = true) : isSpace c = false := by
  have h1 := isDigit_ne c ' ' hc (by decide)
  have h2 := isDigit_ne c '\t' hc (by decide)
  have h3 := isDigit_ne c '\r' hc (by decide)
  have h4 := isDigit_ne c '\n' hc (by decide)
  simp [isSpace, h1, h2, h3, h4]

theorem parseKey_encode (k : GoString) (rest : List Char) :
    parseKey (encodeString k ++ ':' :: rest) = Except.ok (coerceUTF8 k, rest) := by
  simp only [parseKey, encodeString, List.cons_append]
  rw [skipWs_cons _ _ (by decide)]
  simp only [if_true, parseStringBody_encode]
  rw [skipWs_cons _ _ (by decide)]
  simp

theorem parseKey_encodeName (n : List Char) (rest : List Char) :
    parseKey (encodeName n ++ ':' :: rest) = Except.ok (n, rest) := by
  unfold encodeName
  rw [parseKey_encode, coerceUTF8_map_rune]

/-- A number starts with a minus sign or a digit. -/
theorem scanNumber_head (s : List Char) (r : List Char × List Char)
    (h : scanNumber s = Except.ok r) : ∃ c t, s = c :: t ∧ (c = '-' ∨ isDigit c = true) := by
  cases s with
  | nil => simp [scanNumber] at h
  | cons c t =>
    refine ⟨c, t, rfl, ?_⟩
    by_cases hc : c = '-'
    · exact Or.inl hc
    · right
      simp only [scanNumber, if_neg hc, scanUnsigned, scanInt] at h
      by_cases h0 : c = '0'
      · subst h0; decide
      · simp only [if_neg h0] at h
        by_cases hd : isDigit c = true
        · exact hd
        · simp [hd] at h

theorem numberStart (c : Char) (h : c = '-' ∨ isDigit c = true) :
    isSpace c = false ∧ c ≠ '\x7b' ∧ c ≠ '[' ∧ c ≠ '"' ∧ c ≠ 't' ∧ c ≠ 'f' ∧ c ≠ 'n' ∧ c ≠ ']' := by
  rcases h with h | h
  · subst h; decide
  · exact ⟨isSpace_digit c h, isDigit_ne c _ h (by decide), isDigit_ne c _ h (by decide),
      isDigit_ne c _ h (by decide), isDigit_ne c _ h (by decide), isDigit_ne c _ h (by decide),
      isDigit_ne c _ h (by decide), isDigit_ne c _ h (by decide)⟩

/-- A text that reads as a number is read by `parseValue` as that number. -/
theorem parseValue_number (tok rest : List Char) (f : Nat)
    (h : scanNumber (tok ++ rest) = Except.ok (tok, rest)) :
    parseValue (f + 1) (tok ++ rest) = Except.ok (Json.number tok, rest) := by
  obtain ⟨c, t, hct, hc⟩ := scanNumber_head _ _ h
  obtain ⟨h1, h2, h3, h4, h5, h6, h7, _⟩ := numberStart c hc
  rw [hct] at h ⊢
  rw [parseValue, skipWs_cons _ _ h1]
  simp only [h2, h3, h4, h5, h6, h7, if_false, hc, if_true, parseNumber, h]

theorem parseValue_int (n : Int) (f : Nat) (rest : List Char) (hr : numEnd rest = true) :
    parseValue (f + 1) (encodeInt n ++ rest) = Except.ok (Json.number (encodeInt n), rest) :=
  parseValue_number _ _ f (scanNumber_encodeInt n rest hr)

theorem parseValue_float [GoLib F] (hlib : Lawful F) (x : F) (f : Nat) (rest : List Char)
    (hr : numEnd rest = true) :
    parseValue (f + 1) (GoLib.formatFloat x ++ rest) =
      Except.ok (Json.number (GoLib.formatFloat x), rest) :=
  parseValue_number _ _ f (hlib.format_scan x rest hr)

theorem formatFloat_head [GoLib F] (hlib : Lawful F) (x : F) :
    ∃ c t, GoLib.formatFloat x = c :: t ∧ (c = '-' ∨ isDigit c = true) := by
  have h := hlib.format_scan x [] rfl
  rw [List.append_nil] at h
  exact scanNumber_head _ _ h

/-! ## Lemmas: reading back what the encoder wrote -/

theorem encodeItems_length_pos [GoLib F] (t : List (Value F)) : 1 ≤ (encodeItems t).length := by
  cases t <;> simp [encodeItems]

theorem encodeMembers_length_pos [GoLib F] (t : GoMap F) : 1 ≤ (encodeMembers t).length := by
  cases t with
  | nil => simp [encodeMembers]
  | cons p t => obtain ⟨k, v⟩ := p; simp [encodeMembers]

theorem encodeFields_length_pos [GoLib F] (t : Fields F) : 1 ≤ (encodeFields t).length := by
  cases t with
  | nil => simp [encodeFields]
  | cons p t => obtain ⟨k, ty, v⟩ := p; simp [encodeFields]

theorem numEnd_encodeItems [GoLib F] (t : List (Value F)) (rest : List Char) :
    numEnd (encodeItems t ++ rest) = true := by
  cases t <;> rfl

theorem numEnd_encodeMembers [GoLib F] (t : GoMap F) (rest : List Char) :
    numEnd (encodeMembers t ++ rest) = true := by
  cases t with
  | nil => rfl
  | cons p t => obtain ⟨k, v⟩ := p; rfl

theorem numEnd_encodeFields [GoLib F] (t : Fields F) (rest : List Char) :
    numEnd (encodeFields t ++ rest) = true := by
  cases t with
  | nil => rfl
  | cons p t => obtain ⟨k, ty, v⟩ := p; rfl

theorem encodeValue_head [GoLib F] (hlib : Lawful F) (v : Value F)
    (hv : serializable v = true) :
    ∃ c tl, encodeValue v = c :: tl ∧ isSpace c = false ∧ c ≠ ']' := by
  match v, hv with
  | Value.null, _ => exact ⟨_, _, rfl, by decide, by decide⟩
  | Value.bool true, _ => exact ⟨_, _, rfl, by decide, by decide⟩
  | Value.bool false, _ => exact ⟨_, _, rfl, by decide, by decide⟩
  | Value.num x, _ =>
    obtain ⟨c, t, hct, hc⟩ := formatFloat_head hlib x
    exact ⟨c, t, by simp only [encodeValue, hct], (numberStart c hc).1, (numberStart c hc).2.2.2.2.2.2.2⟩
  | Value.int n, _ =>
    obtain ⟨c, t, hct, hc⟩ := scanNumber_head _ _ (scanNumber_encodeInt n [] rfl)
    rw [List.append_nil] at hct
    exact ⟨c, t, by simp only [encodeValue, hct], (numberStart c hc).1, (numberStart c hc).2.2.2.2.2.2.2⟩
  | Value.str s, _ => exact ⟨_, _, rfl, by decide, by decide⟩
  | Value.arr [], _ => exact ⟨_, _, rfl, by decide, by decide⟩
  | Value.arr (x :: t), _ =>
    exact ⟨'[', encodeValue x ++ encodeItems t, by simp only [encodeValue], by decide, by decide⟩
  | Value.obj [], _ => exact ⟨_, _, rfl, by decide, by decide⟩
  | Value.obj ((k, v) :: t), _ =>
    exact ⟨'\x7b', encodeString k ++ ':' :: (encodeValue v ++ encodeMembers t),
      by simp only [encodeValue], by decide, by decide⟩
  | Value.record [], _ => exact ⟨_, _, rfl, by decide, by decide⟩
  | Value.record ((n, ty, v) :: t), _ =>
    exact ⟨'\x7b', encodeName n ++ ':' :: (encodeValue v ++ encodeFields t),
      by simp only [encodeValue], by decide, by decide⟩
  | Value.chan, hv => exact absurd hv (by simp [serializable])

mutual
theorem parseValue_encode [GoLib F] (hlib : Lawful F) (v : Value F)
    (hv : serializable v = true) (f : Nat) (rest : List Char)
    (hf : (encodeValue v).length ≤ f) (hr : numEnd rest = true) :
    parseValue (f + 1) (encodeValue v ++ rest) = Except.ok (toJson v, rest) := by
  match v, hv with
  | Value.null, _ =>
    simp [encodeValue, parseValue, skipWs, isSpace, expectChars, toJson]
  | Value.bool true, _ =>
    simp [encodeValue, parseValue, skipWs, isSpace, expectChars, toJson]
  | Value.bool false, _ =>
    simp [encodeValue, parseValue, skipWs, isSpace, expectChars, toJson]
  | Value.num x, _ =>
    simp only [encodeValue, toJson]
    exact parseValue_float hlib x f rest hr
  | Value.int n, _ =>
    simp only [encodeValue, toJson]
    exact parseValue_int n f rest hr
  | Value.str s, _ =>
    simp only [encodeValue, encodeString, List.cons_append, toJson]
    rw [parseValue, skipWs_cons _ _ (by decide)]
    simp [parseStringBody_encode]
  | Value.arr [], _ =>
    simp [encodeValue, parseValue, skipWs, isSpace, toJson, toJsonList]
  | Value.arr (x :: t), hv =>
    simp only [serializable, serializableList, Bool.and_eq_true] at hv
    simp only [encodeValue, List.length_cons, List.length_append] at hf
    obtain ⟨g, rfl⟩ : ∃ g, f = g + 1 := ⟨f - 1, by omega⟩
    have h1 := parseValue_encode hlib x hv.1 g (encodeItems t ++ rest)
      (by have := encodeItems_length_pos t; omega) (numEnd_encodeItems t rest)
    have h2 := parseItems_encode hlib t hv.2 g [toJson x] rest (by omega)
    obtain ⟨c, tl, hc, hsp, hne⟩ := encodeValue_head hlib x hv.1
    simp only [encodeValue, List.cons_append, List.append_assoc, toJson, toJsonList]
    rw [parseValue, skipWs_cons _ _ (by decide)]
    simp only [show ('[' : Char) ≠ '\x7b' by decide, if_false, if_true]
    rw [hc] at h1 ⊢
    rw [List.cons_append] at h1 ⊢
    rw [skipWs_cons _ _ hsp]
    simp only [if_neg hne, h1, h2, List.reverse_singleton, List.singleton_append]
  | Value.obj [], _ =>
    simp [encodeValue, parseValue, skipWs, isSpace, toJson, toJsonMembers]
  | Value.obj ((k, v) :: t), hv =>
    simp only [serializable, serializableMembers, Bool.and_eq_true] at hv
    simp only [encodeValue, List.length_cons, List.length_append] at hf
    obtain ⟨g, rfl⟩ : ∃ g, f = g + 1 := ⟨f - 1, by omega⟩
    have h1 := parseValue_encode hlib v hv.1 g (encodeMembers t ++ rest)
      (by have := encodeMembers_length_pos t; omega) (numEnd_encodeMembers t rest)
    have h2 := parseMembers_encode hlib t hv.2 g [(coerceUTF8 k, toJson v)] rest (by omega)
    have h3 := parseKey_encode k (encodeValue v ++ (encodeMembers t ++ rest))
    simp only [encodeString, List.cons_append] at h3
    simp only [encodeValue, encodeString, List.cons_append, List.append_assoc, toJson,
      toJsonMembers]
    rw [parseValue, skipWs_cons _ _ (by decide)]
    simp only [if_true]
    rw [skipWs_cons _ _ (by decide)]
    simp only [show ('"' : Char) ≠ '\x7d' by decide, if_false, h3, h1, h2, List.reverse_singleton,
      List.singleton_append]
  | Value.record [], _ =>
    simp [encodeValue, parseValue, skipWs, isSpace, toJson, toJsonFields]
  | Value.record ((n, ty, v) :: t), hv =>
    simp only [serializable, serializableFields, Bool.and_eq_true] at hv
    simp only [encodeValue, List.length_cons, List.length_append] at hf
    obtain ⟨g, rfl⟩ : ∃ g, f = g + 1 := ⟨f - 1, by omega⟩
    have h1 := parseValue_encode hlib v hv.1 g (encodeFields t ++ rest)
      (by have := encodeFields_length_pos t; omega) (numEnd_encodeFields t rest)
    have h2 := parseFields_encode hlib t hv.2 g [(n, toJson v)] rest (by omega)
    have h3 := parseKey_encodeName n (encodeValue v ++ (encodeFields t ++ rest))
    simp only [encodeName, encodeString, List.cons_append] at h3
    simp only [encodeValue, encodeName, encodeString, List.cons_append, List.append_assoc, toJson,
      toJsonFields]
    rw [parseValue, skipWs_cons _ _ (by decide)]
    simp only [if_true]
    rw [skipWs_cons _ _ (by decide)]
    simp only [show ('"' : Char) ≠ '\x7d' by decide, if_false, h3, h1, h2, List.reverse_singleton,
      List.singleton_append]
  | Value.chan, hv => exact absurd hv (by simp [serializable])
theorem parseItems_encode [GoLib F] (hlib : Lawful F) (t : List (Value F))
    (ht : serializableList t = true) (f : Nat) (acc : List Json)
    (rest : List Char) (hf : (encodeItems t).length ≤ f + 1) :
    parseItems (f + 1) acc (encodeItems t ++ rest) =
      Except.ok (Json.array (acc.reverse ++ toJsonList t), rest) := by
  match t, ht with
  | [], _ =>
    simp [encodeItems, parseItems, skipWs, isSpace, toJsonList]
  | x :: t, ht =>
    simp only [serializableList, Bool.and_eq_true] at ht
    simp only [encodeItems, List.length_cons, List.length_append] at hf
    obtain ⟨g, rfl⟩ : ∃ g, f = g + 1 := ⟨f - 1, by have := encodeItems_length_pos t; omega⟩
    have h1 := parseValue_encode hlib x ht.1 g (encodeItems t ++ rest)
      (by have := encodeItems_length_pos t; omega) (numEnd_encodeItems t rest)
    have h2 := parseItems_encode hlib t ht.2 g (toJson x :: acc) rest (by omega)
    simp only [encodeItems, List.cons_append, List.append_assoc, toJsonList]
    rw [parseItems, skipWs_cons _ _ (by decide)]
    simp only [show (',' : Char) ≠ ']' by decide, if_false, if_true, h1, h2,
      List.reverse_cons, List.append_assoc, List.singleton_append]
theorem parseMembers_encode [GoLib F] (hlib : Lawful F) (t : GoMap F)
    (ht : serializableMembers t = true) (f : Nat) (acc : List (List Char × Json))
    (rest : List Char) (hf : (encodeMembers t).length ≤ f + 1) :
    parseMembers (f + 1) acc (encodeMembers t ++ rest) =
      Except.ok (Json.object (acc.reverse ++ toJsonMembers t), rest) := by
  match t, ht with
  | [], _ =>
    simp [encodeMembers, parseMembers, skipWs, isSpace, toJsonMembers]
  | (k, v) :: t, ht =>
    simp only [serializableMembers, Bool.and_eq_true] at ht
    simp only [encodeMembers, List.length_cons, List.length_append] at hf
    obtain ⟨g, rfl⟩ : ∃ g, f = g + 1 := ⟨f - 1, by have := encodeMembers_length_pos t; omega⟩
    have h1 := parseValue_encode hlib v ht.1 g (encodeMembers t ++ rest)
      (by have := encodeMembers_length_pos t; omega) (numEnd_encodeMembers t rest)
    have h2 := parseMembers_encode hlib t ht.2 g ((coerceUTF8 k, toJson v) :: acc) rest (by omega)
    have h3 := parseKey_encode k (encodeValue v ++ (encodeMembers t ++ rest))
    simp only [encodeMembers, List.cons_append, List.append_assoc, toJsonMembers]
    rw [parseMembers, skipWs_cons _ _ (by decide)]
    simp only [show (',' : Char) ≠ '\x7d' by decide, if_false, if_true, h3, h1, h2,
      List.reverse_cons, List.append_assoc, List.singleton_append]
theorem parseFields_encode [GoLib F] (hlib : Lawful F) (t : Fields F)
    (ht : serializableFields t = true) (f : Nat) (acc : List (List Char × Json))
    (rest : List Char) (hf : (encodeFields t).length ≤ f + 1) :
    parseMembers (f + 1) acc (encodeFields t ++ rest) =
      Except.ok (Json.object (acc.reverse ++ toJsonFields t), rest) := by
  match t, ht with
  | [], _ =>
    simp [encodeFields, parseMembers, skipWs, isSpace, toJsonFields]
  | (n, ty, v) :: t, ht =>
    simp only [serializableFields, Bool.and_eq_true] at ht
    simp only [encodeFields, List.length_cons, List.length_append] at hf
    obtain ⟨g, rfl⟩ : ∃ g, f = g + 1 := ⟨f - 1, by have := encodeFields_length_pos t; omega⟩
    have h1 := parseValue_encode hlib v ht.1 g (encodeFields t ++ rest)
      (by have := encodeFields_length_pos t; omega) (numEnd_encodeFields t rest)
    have h2 := parseFields_encode hlib t ht.2 g ((n, toJson v) :: acc) rest (by omega)
    have h3 := parseKey_encodeName n (encodeValue v ++ (encodeFields t ++ rest))
    simp only [encodeFields, List.cons_append, List.append_assoc, toJsonFields]
    rw [parseMembers, skipWs_cons _ _ (by decide)]
    simp only [show (',' : Char) ≠ '\x7d' by decide, if_false, if_true, h3, h1, h2,
      List.reverse_cons, List.append_assoc, List.singleton_append]
end

/-- The decoder reads the text of a serializable value as its syntax tree. -/
theorem readJson_encode [GoLib F] (hlib : Lawful F) (v : Value F)
    (hv : serializable v = true) : readJson (encodeValue v) = Except.ok (toJson v) := by
  obtain ⟨c, tl, hc, hsp, _⟩ := encodeValue_head hlib v hv
  have h := parseValue_encode hlib v hv (encodeValue v).length [] (le_refl _) rfl
  rw [List.append_nil] at h
  unfold readJson
  rw [hc] at h ⊢
  rw [skipWs_cons _ _ hsp]
  simp only [h]

/-! ## Lemmas: storing into interfaces and maps -/

mutual
theorem storeJson_canonical [GoLib F] (hlib : Lawful F) (v : Value F) (hv : Canonical v)
    (cur : Value F) : storeJson GoType.iface (toJson v) cur = Except.ok v := by
  match v, hv with
  | Value.null, _ => rfl
  | Value.bool b, _ => rfl
  | Value.num x, _ =>
    simp only [toJson, storeJson, hlib.parse_format]
  | Value.str s, hv =>
    simp only [Canonical] at hv
    simp only [toJson, storeJson, map_rune_coerce s hv]
  | Value.arr xs, hv =>
    simp only [Canonical] at hv
    simp only [toJson, storeJson, storeItems_canonical hlib xs hv]
  | Value.obj fs, hv =>
    simp only [Canonical] at hv
    simp only [toJson, storeJson,
      storeMembers_canonical hlib fs hv.2 [] (by simpa using hv.1), List.nil_append]
  | Value.int _, hv => exact absurd hv (by simp [Canonical])
  | Value.record _, hv => exact absurd hv (by simp [Canonical])
  | Value.chan, hv => exact absurd hv (by simp [Canonical])
theorem storeItems_canonical [GoLib F] (hlib : Lawful F) (xs : List (Value F))
    (h : CanonicalList xs) : storeItems (toJsonList xs) = Except.ok xs := by
  match xs, h with
  | [], _ => rfl
  | x :: t, h =>
    simp only [CanonicalList] at h
    simp only [toJsonList, storeItems, storeJson_canonical hlib x h.1,
      storeItems_canonical hlib t h.2]
theorem storeMembers_canonical [GoLib F] (hlib : Lawful F) (t : GoMap F)
    (h : CanonicalFields t) (acc : GoMap F) (hs : KeysSorted (acc ++ t)) :
    storeMembers (toJsonMembers t) acc = Except.ok (acc ++ t) := by
  match t, h with
  | [], _ => simp [toJsonMembers, storeMembers]
  | (k, v) :: t, h =>
    simp only [CanonicalFields] at h
    have hk := keysSorted_append_singleton acc k v t hs
    simp only [toJsonMembers, storeMembers, storeJson_canonical hlib v h.2.1,
      map_rune_coerce k h.1, mapSet_append acc k v hk]
    rw [storeMembers_canonical hlib t h.2.2 (acc ++ [(k, v)]) (by simpa using hs)]
    simp
end

theorem canonicalList_snoc (a : List (Value F)) (x : Value F) (ha : CanonicalList a)
    (hx : Canonical x) : CanonicalList (a ++ [x]) :=
  canonicalList_append a [x] ha (by simp [CanonicalList, hx])

mutual
theorem storeJson_iface_canonical [GoLib F] (j : Json) (cur v : Value F)
    (h : storeJson GoType.iface j cur = Except.ok v) : Canonical v := by
  match j with
  | Json.null =>
    simp only [storeJson, Except.ok.injEq] at h
    subst h; trivial
  | Json.bool b =>
    simp only [storeJson, Except.ok.injEq] at h
    subst h; trivial
  | Json.number tok =>
    simp only [storeJson] at h
    split at h
    · simp only [Except.ok.injEq] at h
      subst h; trivial
    · cases h
  | Json.string s =>
    simp only [storeJson, Except.ok.injEq] at h
    subst h
    simp only [Canonical, validUTF8_map_rune]
  | Json.array items =>
    simp only [storeJson] at h
    split at h
    · rename_i xs hx
      simp only [Except.ok.injEq] at h
      subst h
      simp only [Canonical]
      exact storeItems_canonicalList items xs hx
    · cases h
  | Json.object members =>
    simp only [storeJson] at h
    split at h
    · rename_i m hm
      simp only [Except.ok.injEq] at h
      subst h
      simp only [Canonical]
      exact storeMembers_sorted members [] m trivial trivial hm
    · cases h
theorem storeItems_canonicalList [GoLib F] (items : List Json) (xs : List (Value F))
    (h : storeItems items = Except.ok xs) : CanonicalList xs := by
  match items with
  | [] =>
    simp only [storeItems, Except.ok.injEq] at h
    subst h; trivial
  | j :: t =>
    simp only [storeItems] at h
    split at h
    · cases h
    · rename_i v hv
      split at h
      · cases h
      · rename_i vs hvs
        simp only [Except.ok.injEq] at h
        subst h
        exact ⟨storeJson_iface_canonical j _ v hv, storeItems_canonicalList t vs hvs⟩
theorem storeMembers_sorted [GoLib F] (members : List (List Char × Json)) (acc m : GoMap F)
    (hs : KeysSorted acc) (hc : CanonicalFields acc)
    (h : storeMembers members acc = Except.ok m) : KeysSorted m ∧ CanonicalFields m := by
  match members with
  | [] =>
    simp only [storeMembers, Except.ok.injEq] at h
    subst h; exact ⟨hs, hc⟩
  | (k, j) :: t =>
    simp only [storeMembers] at h
    split at h
    · cases h
    · rename_i v hv
      exact storeMembers_sorted t _ m (keysSorted_mapSet acc _ v hs)
        (canonicalFields_mapSet acc _ v hc (validUTF8_map_rune k)
          (storeJson_iface_canonical j _ v hv)) h
end

/-- What the decoder can leave in a variable of map type that held a canonical
map: a canonical map. -/
theorem storeJson_map_canonical [GoLib F] (j : Json) (cur v : Value F)
    (hs : KeysSorted cur.toMap) (hc : CanonicalFields cur.toMap)
    (h : storeJson GoType.map j cur = Except.ok v) :
    v = Value.null ∨ ∃ m, v = Value.obj m ∧ KeysSorted m ∧ CanonicalFields m := by
  cases j with
  | null =>
    simp only [storeJson, Except.ok.injEq] at h
    exact Or.inl h.symm
  | bool b => simp [storeJson] at h
  | number tok => simp [storeJson] at h
  | string s => simp [storeJson] at h
  | array items => simp [storeJson] at h
  | object members =>
    simp only [storeJson] at h
    split at h
    · rename_i m hm
      simp only [Except.ok.injEq] at h
      subst h
      exact Or.inr ⟨m, rfl, storeMembers_sorted members _ m hs hc hm⟩
    · cases h

/-- Into a fresh map the members of an object go as into a fresh interface. -/
theorem storeJson_map_eq_iface [GoLib F] (members : List (List Char × Json)) (cur : Value F)
    (hcur : cur.toMap = []) :
    storeJson GoType.map (Json.object members) cur =
      storeJson GoType.iface (Json.object members) Value.null := by
  simp only [storeJson, hcur]

/-! ## Lemmas: storing into typed variables -/

theorem fieldNames_append (a b : Fields F) :
    fieldNames (a ++ b) = fieldNames a ++ fieldNames b := by
  induction a with
  | nil => rfl
  | cons p t ih => obtain ⟨n, ty, v⟩ := p; simp [fieldNames, ih]

theorem splitExact_at (done post : Fields F) (n : List Char) (ty : GoType) (z : Value F)
    (h : n ∉ fieldNames done) :
    splitExact n (done ++ (n, ty, z) :: post) = some (done, (n, ty, z), post) := by
  induction done with
  | nil => simp [splitExact]
  | cons p t ih =>
    obtain ⟨m, ty2, v2⟩ := p
    simp only [fieldNames, List.mem_cons, not_or] at h
    have hne : ¬ m = n := fun e => h.1 e.symm
    have e := ih h.2
    simp only [List.cons_append, splitExact, if_neg hne]
    simp only [List.append_eq, e]

theorem findField_at [GoLib F] (done post : Fields F) (n : List Char) (ty : GoType)
    (z : Value F) (h : n ∉ fieldNames done) :
    findField n (done ++ (n, ty, z) :: post) = some (done, (n, ty, z), post) := by
  simp only [findField, splitExact_at done post n ty z h]

mutual
theorem storeJson_typed [GoLib F] (hlib : Lawful F) (v : Value F) (ty : GoType)
    (h : Typed ty v) : storeJson ty (toJson v) (zeroLike ty v) = Except.ok v := by
  match v, h with
  | Value.null, h =>
    simp only [Typed] at h
    rcases h with h | h | h <;> subst h <;> rfl
  | Value.bool b, h =>
    simp only [Typed] at h
    rcases h with h | h <;> subst h <;> rfl
  | Value.num x, h =>
    simp only [Typed] at h
    subst h
    simp only [toJson, storeJson, hlib.parse_format]
  | Value.int n, h =>
    simp only [Typed] at h
    obtain ⟨h0, h1, h2⟩ := h
    subst h0
    simp only [toJson, storeJson, parseInt_encodeInt n h1 h2]
  | Value.str s, h =>
    simp only [Typed] at h
    obtain ⟨h0, h1⟩ := h
    rcases h0 with h0 | h0 <;> subst h0 <;> simp only [toJson, storeJson, map_rune_coerce s h1]
  | Value.arr xs, h =>
    simp only [Typed] at h
    obtain ⟨h0, h1⟩ := h
    rcases h0 with h0 | h0 <;> subst h0 <;>
      simp only [toJson, storeJson, storeItems_canonical hlib xs h1]
  | Value.obj fs, h =>
    simp only [Typed] at h
    obtain ⟨h0, h1, h2⟩ := h
    have key := storeMembers_canonical hlib fs h2 [] (by simpa using h1)
    rw [List.nil_append] at key
    rcases h0 with h0 | h0 <;> subst h0 <;>
      simp only [toJson, storeJson, zeroLike, Value.toMap, key]
  | Value.record fs, h =>
    simp only [Typed] at h
    obtain ⟨h0, h1, _, h3⟩ := h
    subst h0
    have key := storeFields_typed hlib fs [] h3 (by simpa using h1)
    simp only [List.nil_append] at key
    simp only [toJson, storeJson, zeroLike, Value.toFields, key]
  | Value.chan, h => exact absurd h (by simp [Typed])
theorem storeFields_typed [GoLib F] (hlib : Lawful F) (t : Fields F) (done : Fields F)
    (ht : TypedFields t) (hnd : (fieldNames (done ++ t)).Nodup) :
    storeFields (toJsonFields t) (done ++ zeroFields t) = Except.ok (done ++ t) := by
  match t, ht with
  | [], _ => simp [toJsonFields, zeroFields, storeFields]
  | (n, ty, v) :: t, ht =>
    simp only [TypedFields] at ht
    have hn : n ∉ fieldNames done := by
      rw [fieldNames_append] at hnd
      simp only [fieldNames] at hnd
      intro hmem
      exact (List.nodup_append.1 hnd).2.2 hmem (List.mem_cons_self _ _)
    have h1 := storeJson_typed hlib v ty ht.1
    have h2 := storeFields_typed hlib t (done ++ [(n, ty, v)]) ht.2 (by simpa using hnd)
    simp only [toJsonFields, zeroFields, storeFields,
      findField_at done (zeroFields t) n ty (zeroLike ty v) hn, h1]
    simpa using h2
end

mutual
theorem typed_serializable (v : Value F) (ty : GoType) (h : Typed ty v) :
    serializable v = true := by
  match v, h with
  | Value.null, _ => rfl
  | Value.bool _, _ => rfl
  | Value.num _, _ => rfl
  | Value.int _, _ => rfl
  | Value.str _, _ => rfl
  | Value.arr xs, h =>
    simp only [Typed] at h
    simp only [serializable]
    exact canonicalList_serializable xs h.2
  | Value.obj fs, h =>
    simp only [Typed] at h
    simp only [serializable]
    exact canonicalFields_serializable fs h.2.2
  | Value.record fs, h =>
    simp only [Typed] at h
    simp only [serializable]
    exact typedFields_serializable fs h.2.2.2
  | Value.chan, h => exact absurd h (by simp [Typed])
theorem canonical_serializable (v : Value F) (hv : Canonical v) : serializable v = true := by
  match v, hv with
  | Value.null, _ => rfl
  | Value.bool _, _ => rfl
  | Value.num _, _ => rfl
  | Value.str _, _ => rfl
  | Value.arr xs, hv =>
    simp only [Canonical] at hv
    simp only [serializable]
    exact canonicalList_serializable xs hv
  | Value.obj fs, hv =>
    simp only [Canonical] at hv
    simp only [serializable]
    exact canonicalFields_serializable fs hv.2
  | Value.int _, hv => exact absurd hv (by simp [Canonical])
  | Value.record _, hv => exact absurd hv (by simp [Canonical])
  | Value.chan, hv => exact absurd hv (by simp [Canonical])
theorem canonicalList_serializable (xs : List (Value F)) (h : CanonicalList xs) :
    serializableList xs = true := by
  match xs, h with
  | [], _ => rfl
  | x :: t, h =>
    simp only [CanonicalList] at h
    simp only [serializableList, Bool.and_eq_true]
    exact ⟨canonical_serializable x h.1, canonicalList_serializable t h.2⟩
theorem canonicalFields_serializable (fs : List (GoString × Value F))
    (h : CanonicalFields fs) : serializableMembers fs = true := by
  match fs, h with
  | [], _ => rfl
  | (_, v) :: t, h =>
    simp only [CanonicalFields] at h
    simp only [serializableMembers, Bool.and_eq_true]
    exact ⟨canonical_serializable v h.2.1, canonicalFields_serializable t h.2.2⟩
theorem typedFields_serializable (fs : Fields F) (h : TypedFields fs) :
    serializableFields fs = true := by
  match fs, h with
  | [], _ => rfl
  | (_, ty, v) :: t, h =>
    simp only [TypedFields] at h
    simp only [serializableFields, Bool.and_eq_true]
    exact ⟨typed_serializable v ty h.1, typedFields_serializable t h.2⟩
end

theorem typed_iface (v : Value F) (h : Canonical v) : Typed GoType.iface v := by
  cases v <;> simp_all [Typed, Canonical]

/-! ## Lemmas: the reader's fuel -/

theorem skipWs_length (s : List Char) : (skipWs s).length ≤ s.length := by
  induction s with
  | nil => simp [skipWs]
  | cons c t ih =>
    unfold skipWs
    split
    · simp only [List.length_cons]; omega
    · exact le_refl _

theorem skipWs_eq_cons_length (s : List Char) (c : Char) (t : List Char)
    (h : skipWs s = c :: t) : t.length < s.length := by
  have := skipWs_length s
  rw [h] at this
  simp only [List.length_cons] at this
  omega

theorem consChar_ok (c : Char) (r : Except GoError (List Char × List Char)) (x rest : List Char)
    (h : consChar c r = Except.ok (x, rest)) : ∃ y, r = Except.ok (y, rest) := by
  unfold consChar at h
  split at h
  · cases h; exact ⟨_, rfl⟩
  · cases h

theorem parseStringBody_length (s : List Char) :
    ∀ (st : StrState) (x r : List Char), parseStringBody st s = Except.ok (x, r) →
      r.length < s.length := by
  induction s with
  | nil => intro st x r h; cases st <;> simp [parseStringBody] at h
  | cons c t ih =>
    intro st x r h
    cases st with
    | normal =>
      simp only [parseStringBody] at h
      split at h
      · cases h; simp
      split at h
      · have := ih _ _ _ h
        simp only [List.length_cons]; omega
      split at h
      · cases h
      · obtain ⟨y, hy⟩ := consChar_ok _ _ _ _ h
        have := ih _ _ _ hy
        simp only [List.length_cons]; omega
    | escape =>
      simp only [parseStringBody] at h
      split at h
      · split at h
        · cases h
        · obtain ⟨y, hy⟩ := consChar_ok _ _ _ _ h
          have := ih _ _ _ hy
          simp only [List.length_cons]; omega
      · split at h
        · obtain ⟨y, hy⟩ := consChar_ok _ _ _ _ h
          have := ih _ _ _ hy
          simp only [List.length_cons]; omega
        · cases h
    | skip k =>
      simp only [parseStringBody] at h
      split at h
      · have := ih _ _ _ h
        simp only [List.length_cons]; omega
      · have := ih _ _ _ h
        simp only [List.length_cons]; omega

theorem parseKey_length (s : List Char) (k : List Char) (r : List Char)
    (h : parseKey s = Except.ok (k, r)) : r.length < s.length := by
  unfold parseKey at h
  split at h
  · cases h
  · rename_i c t hs
    have h1 := skipWs_eq_cons_length s c t hs
    split at h
    · split at h
      · cases h
      · rename_i x rest hx
        have h2 := parseStringBody_length _ _ _ _ hx
        split at h
        · cases h
        · rename_i c2 t2 hs2
          have h3 := skipWs_eq_cons_length _ c2 t2 hs2
          split at h
          · cases h; omega
          · cases h
    · cases h

theorem expectChars_length (es s r : List Char) (h : expectChars es s = Except.ok r) :
    r.length ≤ s.length := by
  induction es generalizing s with
  | nil => simp only [expectChars] at h; cases h; exact le_refl _
  | cons e es ih =>
    cases s with
    | nil => simp [expectChars] at h
    | cons c t =>
      simp only [expectChars] at h
      split at h
      · have := ih _ h
        simp only [List.length_cons]; omega
      · cases h

theorem spanDigits_length (s : List Char) : (spanDigits s).2.length ≤ s.length := by
  induction s with
  | nil => simp [spanDigits]
  | cons c t ih =>
    unfold spanDigits
    split
    · simp only [List.length_cons]; omega
    · exact le_refl _

theorem scanDigits1_length (s ds r : List Char) (h : scanDigits1 s = Except.ok (ds, r)) :
    r.length < s.length := by
  cases s with
  | nil => simp [scanDigits1] at h
  | cons c t =>
    simp only [scanDigits1] at h
    split at h
    · simp only [Except.ok.injEq, Prod.mk.injEq] at h
      have := spanDigits_length t
      rw [h.2] at this
      simp only [List.length_cons]; omega
    · cases h

theorem scanInt_length (s ds r : List Char) (h : scanInt s = Except.ok (ds, r)) :
    r.length < s.length := by
  cases s with
  | nil => simp [scanInt] at h
  | cons c t =>
    simp only [scanInt] at h
    split at h
    · simp only [Except.ok.injEq, Prod.mk.injEq] at h
      rw [← h.2]; simp
    split at h
    · simp only [Except.ok.injEq, Prod.mk.injEq] at h
      have := spanDigits_length t
      rw [h.2] at this
      simp only [List.length_cons]; omega
    · cases h

theorem scanFrac_length (s ds r : List Char) (h : scanFrac s = Except.ok (ds, r)) :
    r.length ≤ s.length := by
  cases s with
  | nil =>
    simp only [scanFrac, Except.ok.injEq, Prod.mk.injEq] at h
    rw [← h.2]
  | cons c t =>
    simp only [scanFrac] at h
    split at h
    · split at h
      · cases h
      · rename_i ds0 r0 hd
        have := scanDigits1_length _ _ _ hd
        simp only [Except.ok.injEq, Prod.mk.injEq] at h
        rw [← h.2]
        simp only [List.length_cons]; omega
    · simp only [Except.ok.injEq, Prod.mk.injEq] at h
      rw [← h.2]

theorem scanExp_length (s ds r : List Char) (h : scanExp s = Except.ok (ds, r)) :
    r.length ≤ s.length := by
  cases s with
  | nil =>
    simp only [scanExp, Except.ok.injEq, Prod.mk.injEq] at h
    rw [← h.2]
  | cons c t =>
    simp only [scanExp] at h
    split at h
    · split at h
      · cases h
      · split at h
        · split at h
          · cases h
          · rename_i ds0 r0 hd
            have := scanDigits1_length _ _ _ hd
            simp only [Except.ok.injEq, Prod.mk.injEq] at h
            rw [← h.2]
            simp only [List.length_cons]; omega
        · split at h
          · cases h
          · rename_i ds0 r0 hd
            have := scanDigits1_length _ _ _ hd
            simp only [Except.ok.injEq, Prod.mk.injEq] at h
            rw [← h.2]
            simp only [List.length_cons] at this ⊢; omega
    · simp only [Except.ok.injEq, Prod.mk.injEq] at h
      rw [← h.2]

theorem scanUnsigned_length (s tok r : List Char) (h : scanUnsigned s = Except.ok (tok, r)) :
    r.length < s.length := by
  unfold scanUnsigned at h
  split at h
  · cases h
  · rename_i i s1 hi
    have h1 := scanInt_length _ _ _ hi
    split at h
    · cases h
    · rename_i f s2 hf
      have h2 := scanFrac_length _ _ _ hf
      split at h
      · cases h
      · rename_i x s3 hx
        have h3 := scanExp_length _ _ _ hx
        simp only [Except.ok.injEq, Prod.mk.injEq] at h
        rw [← h.2]; omega

theorem scanNumber_length (s tok r : List Char) (h : scanNumber s = Except.ok (tok, r)) :
    r.length < s.length := by
  cases s with
  | nil => simp [scanNumber] at h
  | cons c t =>
    simp only [scanNumber] at h
    split at h
    · split at h
      · cases h
      · rename_i tok0 r0 hu
        have := scanUnsigned_length _ _ _ hu
        simp only [Except.ok.injEq, Prod.mk.injEq] at h
        rw [← h.2]
        simp only [List.length_cons]; omega
    · exact scanUnsigned_length _ _ _ h

theorem parseNumber_length (s : List Char) (v : Json) (r : List Char)
    (h : parseNumber s = Except.ok (v, r)) : r.length < s.length := by
  unfold parseNumber at h
  split at h
  · cases h
  · rename_i tok rest hs
    have := scanNumber_length _ _ _ hs
    simp only [Except.ok.injEq, Prod.mk.injEq] at h
    rw [← h.2]; exact this

theorem parse_length (f : Nat) :
    (∀ s v r, parseValue f s = Except.ok (v, r) → r.length < s.length) ∧
    (∀ acc s v r, parseItems f acc s = Except.ok (v, r) → r.length < s.length) ∧
    (∀ acc s v r, parseMembers f acc s = Except.ok (v, r) → r.length < s.length) := by
  induction f with
  | zero =>
    refine ⟨?_, ?_, ?_⟩
    · intro s v r h; simp [parseValue] at h
    · intro acc s v r h; simp [parseItems] at h
    · intro acc s v r h; simp [parseMembers] at h
  | succ f ih =>
    obtain ⟨ihV, ihI, ihM⟩ := ih
    refine ⟨?_, ?_, ?_⟩
    · intro s v r h
      rw [parseValue] at h
      split at h
      · cases h
      rename_i c t hs
      have h0 := skipWs_eq_cons_length s c t hs
      split at h
      · split at h
        · cases h
        rename_i c1 t1 hs1
        have h1 := skipWs_eq_cons_length t c1 t1 hs1
        split at h
        · cases h; omega
        split at h
        · cases h
        rename_i k r0 hk
        have h2 := parseKey_length _ _ _ hk
        simp only [List.length_cons] at h2
        split at h
        · cases h
        · rename_i v0 r1 hv
          have h3 := ihV _ _ _ hv
          have h4 := ihM _ _ _ _ h
          omega
      split at h
      · split at h
        · cases h
        rename_i c1 t1 hs1
        have h1 := skipWs_eq_cons_length t c1 t1 hs1
        split at h
        · cases h; omega
        split at h
        · cases h
        · rename_i v0 r1 hv
          have h3 := ihV _ _ _ hv
          simp only [List.length_cons] at h3
          have h4 := ihI _ _ _ _ h
          omega
      split at h
      · split at h
        · cases h
        · rename_i x r0 hx
          have := parseStringBody_length _ _ _ _ hx
          cases h; omega
      split at h
      · split at h
        · cases h
        · rename_i r0 hx
          have := expectChars_length _ _ _ hx
          cases h; omega
      split at h
      · split at h
        · cases h
        · rename_i r0 hx
          have := expectChars_length _ _ _ hx
          cases h; omega
      split at h
      · split at h
        · cases h
        · rename_i r0 hx
          have := expectChars_length _ _ _ hx
          cases h; omega
      split at h
      · have := parseNumber_length _ _ _ h
        simp only [List.length_cons] at this
        omega
      · cases h
    · intro acc s v r h
      rw [parseItems] at h
      split at h
      · cases h
      rename_i c t hs
      have h0 := skipWs_eq_cons_length s c t hs
      split at h
      · cases h; omega
      split at h
      · split at h
        · cases h
        · rename_i v0 r1 hv
          have h3 := ihV _ _ _ hv
          have h4 := ihI _ _ _ _ h
          omega
      · cases h
    · intro acc s v r h
      rw [parseMembers] at h
      split at h
      · cases h
      rename_i c t hs
      have h0 := skipWs_eq_cons_length s c t hs
      split at h
      · cases h; omega
      split at h
      · split at h
        · cases h
        rename_i k r0 hk
        have h2 := parseKey_length _ _ _ hk
        split at h
        · cases h
        · rename_i v0 r1 hv
          have h3 := ihV _ _ _ hv
          have h4 := ihM _ _ _ _ h
          omega
      · cases h

theorem parse_fuel (f : Nat) :
    ∀ g s, s.length < f → s.length < g →
      parseValue f s = parseValue g s ∧
      (∀ acc, parseItems f acc s = parseItems g acc s) ∧
      (∀ acc, parseMembers f acc s = parseMembers g acc s) := by
  induction f with
  | zero => intro g s h; omega
  | succ f ih =>
    intro g s hf hg
    obtain ⟨g, rfl⟩ : ∃ g', g = g' + 1 := ⟨g - 1, by omega⟩
    refine ⟨?_, ?_, ?_⟩
    · rw [parseValue, parseValue]
      cases hs : skipWs s with
      | nil => rfl
      | cons c t =>
        have h0 := skipWs_eq_cons_length s c t hs
        simp only []
        by_cases h1 : c = '\x7b'
        · simp only [h1, if_true]
          cases hs1 : skipWs t with
          | nil => rfl
          | cons c1 t1 =>
            have h01 := skipWs_eq_cons_length t c1 t1 hs1
            simp only []
            by_cases h2 : c1 = '\x7d'
            · simp only [h2, if_true]
            · simp only [h2, if_false]
              cases hk : parseKey (c1 :: t1) with
              | error e => rfl
              | ok p =>
                obtain ⟨k, r⟩ := p
                have hkl := parseKey_length _ _ _ hk
                simp only [List.length_cons] at hkl
                simp only []
                rw [(ih g r (by omega) (by omega)).1]
                cases hv : parseValue g r with
                | error e => rfl
                | ok q =>
                  obtain ⟨v, r1⟩ := q
                  have hvl := (parse_length g).1 _ _ _ hv
                  simp only []
                  exact (ih g r1 (by omega) (by omega)).2.2 _
        · simp only [h1, if_false]
          by_cases h2 : c = '['
          · simp only [h2, if_true]
            cases hs1 : skipWs t with
            | nil => rfl
            | cons c1 t1 =>
              have h01 := skipWs_eq_cons_length t c1 t1 hs1
              simp only []
              by_cases h3 : c1 = ']'
              · simp only [h3, if_true]
              · simp only [h3, if_false]
                rw [(ih g (c1 :: t1) (by simp only [List.length_cons]; omega)
                  (by simp only [List.length_cons]; omega)).1]
                cases hv : parseValue g (c1 :: t1) with
                | error e => rfl
                | ok q =>
                  obtain ⟨v, r1⟩ := q
                  have hvl := (parse_length g).1 _ _ _ hv
                  simp only [List.length_cons] at hvl
                  simp only []
                  exact (ih g r1 (by omega) (by omega)).2.1 _
          · simp only [h2, if_false]
    · intro acc
      rw [parseItems, parseItems]
      cases hs : skipWs s with
      | nil => rfl
      | cons c t =>
        have h0 := skipWs_eq_cons_length s c t hs
        simp only []
        by_cases h1 : c = ']'
        · simp only [h1, if_true]
        · simp only [h1, if_false]
          by_cases h2 : c = ','
          · simp only [h2, if_true]
            rw [(ih g t (by omega) (by omega)).1]
            cases hv : parseValue g t with
            | error e => rfl
            | ok q =>
              obtain ⟨v, r1⟩ := q
              have hvl := (parse_length g).1 _ _ _ hv
              simp only []
              exact (ih g r1 (by omega) (by omega)).2.1 _
          · simp only [h2, if_false]
    · intro acc
      rw [parseMembers, parseMembers]
      cases hs : skipWs s with
      | nil => rfl
      | cons c t =>
        have h0 := skipWs_eq_cons_length s c t hs
        simp only []
        by_cases h1 : c = '\x7d'
        · simp only [h1, if_true]
        · simp only [h1, if_false]
          by_cases h2 : c = ','
          · simp only [h2, if_true]
            cases hk : parseKey t with
            | error e => rfl
            | ok p =>
              obtain ⟨k, r⟩ := p
              have hkl := parseKey_length _ _ _ hk
              simp only []
              rw [(ih g r (by omega) (by omega)).1]
              cases hv : parseValue g r with
              | error e => rfl
              | ok q =>
                obtain ⟨v, r1⟩ := q
                have hvl := (parse_length g).1 _ _ _ hv
                simp only []
                exact (ih g r1 (by omega) (by omega)).2.2 _
          · simp only [h2, if_false]

/-- The decoder's answer does not depend on its fuel: any fuel above the length
of the text gives the same result. -/
theorem readJson_fuel (c : Char) (t : List Char) (g : Nat) (hg : (c :: t).length < g) :
    parseValue ((c :: t).length + 1) (c :: t) = parseValue g (c :: t) :=
  (parse_fuel _ g (c :: t) (Nat.lt_succ_self _) hg).1

/-! ## Lemmas: files and documents -/

@[simp] theorem log_fs (w : World) (c : Syscall) : (w.log c).fs = w.fs := rfl
@[simp] theorem put_fs_same (w : World) (p : String) (n : Node) : (w.put p n).fs p = some n := by
  simp [World.put]
@[simp] theorem createError_log (w : World) (c : Syscall) (p : String) :
    createError (w.log c) p = createError w p := rfl

theorem createError_dir (w : World) (p : String) (h : w.fs (dirOf p) = some Node.dir) :
    createError w p = none := by
  simp [createError, h]

theorem readJson_nil : readJson [] = Except.error io_EOF := rfl

theorem jsonDecode_nil [GoLib F] (t : Target F) : jsonDecode [] t = Except.error io_EOF := rfl

theorem read_file [GoLib F] (w : World) (p : String) (c : List Char) (t : Target F)
    (h : w.fs p = some (Node.file c)) :
    read w p t =
      match jsonDecode c t with
      | Except.error e => ((some e, t.cur), w.log (Syscall.openFile p))
      | Except.ok v => ((none, v), w.log (Syscall.openFile p)) := by
  simp only [read, getFile, osOpenFile, h, fileContent, log_fs]

theorem read_absent [GoLib F] (w : World) (p : String) (t : Target F) (h : w.fs p = none)
    (hd : w.fs (dirOf p) = some Node.dir) :
    read w p t = ((some io_EOF, t.cur),
      ((w.log (Syscall.openFile p)).log (Syscall.create p)).put p (Node.file [])) := by
  simp only [read, getFile, osOpenFile, h, GoError.isPathError, if_true, osCreate, log_fs,
    createError_log, createError_dir w p hd, fileContent, put_fs_same, jsonDecode_nil]

theorem read_absent_error [GoLib F] (w : World) (p : String) (t : Target F) (errno : Errno)
    (h : w.fs p = none) (hd : createError w p = some errno) :
    read w p t = ((some (GoError.pathError "open" p errno), t.cur),
      (w.log (Syscall.openFile p)).log (Syscall.create p)) := by
  simp only [read, getFile, osOpenFile, h, GoError.isPathError, if_true, osCreate, log_fs,
    createError_log, hd]

theorem read_dir [GoLib F] (w : World) (p : String) (t : Target F)
    (h : w.fs p = some Node.dir) :
    read w p t = ((some (GoError.pathError "open" p Errno.EISDIR), t.cur),
      (w.log (Syscall.openFile p)).log (Syscall.create p)) := by
  simp only [read, getFile, osOpenFile, h, GoError.isPathError, if_true, osCreate, log_fs]

theorem read_readOnlyDir [GoLib F] (w : World) (p : String) (t : Target F)
    (h : w.fs p = some Node.readOnlyDir) :
    read w p t = ((some (GoError.pathError "open" p Errno.EISDIR), t.cur),
      (w.log (Syscall.openFile p)).log (Syscall.create p)) := by
  simp only [read, getFile, osOpenFile, h, GoError.isPathError, if_true, osCreate, log_fs]

theorem read_noAccess [GoLib F] (w : World) (p : String) (t : Target F)
    (h : w.fs p = some Node.noAccess) :
    read w p t = ((some (GoError.pathError "open" p Errno.EACCES), t.cur),
      (w.log (Syscall.openFile p)).log (Syscall.create p)) := by
  simp only [read, getFile, osOpenFile, h, GoError.isPathError, if_true, osCreate, log_fs]

theorem write_ok [GoLib F] (w : World) (p : String) (v : Value F)
    (hs : serializable v = true)
    (hp : (w.fs p = none ∧ w.fs (dirOf p) = some Node.dir) ∨ ∃ c, w.fs p = some (Node.file c)) :
    write w p v = (none, (w.log (Syscall.writeFile p)).put p (Node.file (encodeValue v))) := by
  rcases hp with ⟨hp, hd⟩ | ⟨c, hp⟩
  · simp [write, jsonMarshal, hs, ioutilWriteFile, hp, createError_dir w p hd]
  · simp [write, jsonMarshal, hs, ioutilWriteFile, hp]

/-- Loading the text of a canonical map into an empty map yields the map. -/
theorem jsonDecode_encode_obj [GoLib F] (hlib : Lawful F) (m : GoMap F) (hs : KeysSorted m)
    (hc : CanonicalFields m) :
    jsonDecode (encodeValue (Value.obj m)) ⟨GoType.map, Value.obj []⟩ =
      Except.ok (Value.obj m) := by
  have hser : serializable (Value.obj m) = true :=
    canonical_serializable _ (by simp only [Canonical]; exact ⟨hs, hc⟩)
  have key := storeMembers_canonical hlib m hc [] (by simpa using hs)
  rw [List.nil_append] at key
  simp only [jsonDecode, readJson_encode hlib _ hser, toJson, storeJson, Value.toMap, key]

/-- What loading a document into an empty map can leave in it: a canonical map. -/
theorem jsonDecode_map_ok [GoLib F] (c : List Char) (v : Value F)
    (h : jsonDecode c ⟨GoType.map, Value.obj []⟩ = Except.ok v) :
    KeysSorted v.toMap ∧ CanonicalFields v.toMap := by
  unfold jsonDecode at h
  split at h
  · cases h
  · simp only [Except.ok.injEq] at h
    subst h
    exact ⟨trivial, trivial⟩
  · rename_i j _ _
    rcases storeJson_map_canonical j (Value.obj []) v trivial trivial h with hv | ⟨m, hv, hs, hc⟩
    · subst hv; exact ⟨trivial, trivial⟩
    · subst hv; exact ⟨hs, hc⟩

/-- The result of `Get` on a document whose file exists. -/
theorem get_file [GoLib F] (js : JsonStore) (w : World) (d : String) (k : GoString)
    (c : List Char) (h : w.fs (js.getPath d) = some (Node.file c)) :
    (js.Get (F := F) w d k).1 =
      match jsonDecode c ⟨GoType.map, Value.obj []⟩ with
      | Except.error e => (Value.null, some e)
      | Except.ok v =>
        match mapGet v.toMap k with
        | some x => (x, none)
        | none => (Value.null, some ErrNotFound) := by
  simp only [JsonStore.Get, read_file w _ c _ h]
  cases hj : jsonDecode c (⟨GoType.map, Value.obj []⟩ : Target F) with
  | error e => rfl
  | ok t =>
    simp only
    cases hm : mapGet t.toMap k <;> rfl

theorem get_absent [GoLib F] (js : JsonStore) (w : World) (d : String) (k : GoString)
    (h : w.fs (js.getPath d) = none) (hd : w.fs (dirOf (js.getPath d)) = some Node.dir) :
    js.Get (F := F) w d k = ((Value.null, some io_EOF),
      ((w.log (Syscall.openFile (js.getPath d))).log (Syscall.create (js.getPath d))).put
        (js.getPath d) (Node.file [])) := by
  simp only [JsonStore.Get, read_absent w _ _ h hd]

theorem get_encoded [GoLib F] (hlib : Lawful F) (js : JsonStore) (w : World) (d : String)
    (k : GoString) (m : GoMap F) (hs : KeysSorted m) (hc : CanonicalFields m)
    (h : w.fs (js.getPath d) = some (Node.file (encodeValue (Value.obj m)))) :
    (js.Get w d k).1 =
      match mapGet m k with
      | some x => (x, none)
      | none => (Value.null, some ErrNotFound) := by
  rw [get_file js w d k _ h, jsonDecode_encode_obj hlib m hs hc]
  rfl

/-- A successful `Set` has loaded a canonical map `m` (empty when the document
was absent, blank or `null`) and has left the encoding of `m[k] = v` in the file. -/
theorem set_ok_inv [GoLib F] (js : JsonStore) (w : World) (d : String) (k : GoString)
    (v : Value F) (hk : validUTF8 k = true) (hv : Canonical v)
    (hset : (js.Set w d k v).1 = none) :
    ∃ m : GoMap F, KeysSorted m ∧ CanonicalFields m ∧
      (js.Set w d k v).2.fs (js.getPath d) =
        some (Node.file (encodeValue (Value.obj (mapSet m k v)))) ∧
      (∀ k2 x, (js.Get w d k2).1 = (x, none) ↔ mapGet m k2 = some x) := by
  have hser : ∀ m : GoMap F, KeysSorted m → CanonicalFields m →
      serializable (Value.obj (mapSet m k v)) = true := fun m hs hc =>
    canonical_serializable _ (canonical_obj_mapSet m k v hs hc hk hv)
  cases hp : w.fs (js.getPath d) with
  | none =>
    cases hd : createError w (js.getPath d) with
    | some errno =>
      simp [JsonStore.Set, read_absent_error w _ _ errno hp hd, io_EOF] at hset
    | none =>
      have hdir : w.fs (dirOf (js.getPath d)) = some Node.dir := by
        unfold createError at hd
        split at hd <;> first | assumption | cases hd
      refine ⟨[], trivial, trivial, ?_, ?_⟩
      · simp only [JsonStore.Set, read_absent w _ _ hp hdir, ne_eq, not_true_eq_false, if_false,
          Value.toMap]
        rw [write_ok _ _ _ (hser [] trivial trivial) (Or.inr ⟨[], by simp⟩)]
        simp
      · intro k2 x
        rw [get_absent js w d k2 hp hdir]
        simp [mapGet]
  | some n =>
    cases n with
    | dir =>
      simp [JsonStore.Set, read_dir w _ _ hp, io_EOF] at hset
    | readOnlyDir =>
      simp [JsonStore.Set, read_readOnlyDir w _ _ hp, io_EOF] at hset
    | noAccess =>
      simp [JsonStore.Set, read_noAccess w _ _ hp, io_EOF] at hset
    | file c =>
      simp only [JsonStore.Set, read_file w _ c _ hp] at hset ⊢
      cases hj : jsonDecode c (⟨GoType.map, Value.obj []⟩ : Target F) with
      | error e =>
        simp only [hj] at hset ⊢
        by_cases he : e = io_EOF
        · subst he
          refine ⟨[], trivial, trivial, ?_, ?_⟩
          · simp only [ne_eq, not_true_eq_false, if_false, Value.toMap]
            rw [write_ok _ _ _ (hser [] trivial trivial) (Or.inr ⟨c, by simpa using hp⟩)]
            simp
          · intro k2 x
            rw [get_file js w d k2 c hp, hj]
            simp [mapGet]
        · simp [he] at hset
      | ok t =>
        obtain ⟨hs, hc⟩ := jsonDecode_map_ok c t hj
        refine ⟨t.toMap, hs, hc, ?_, ?_⟩
        · simp only
          rw [write_ok _ _ _ (hser _ hs hc) (Or.inr ⟨c, by simpa using hp⟩)]
          simp
        · intro k2 x
          rw [get_file js w d k2 c hp, hj]
          simp only
          cases hm : mapGet t.toMap k2 <;> simp

theorem set_then_get [GoLib F] (hlib : Lawful F) (js : JsonStore) (w : World) (d : String)
    (k : GoString) (v : Value F) (hk : validUTF8 k = true) (hv : Canonical v)
    (hset : (js.Set w d k v).1 = none) :
    ∃ m : GoMap F, (∀ k2 x, (js.Get w d k2).1 = (x, none) ↔ mapGet m k2 = some x) ∧
      ∀ k2, (js.Get (js.Set w d k v).2 d k2).1 =
        match mapGet (mapSet m k v) k2 with
        | some x => (x, none)
        | none => (Value.null, some ErrNotFound) := by
  obtain ⟨m, hs, hc, hfs, hget⟩ := set_ok_inv js w d k v hk hv hset
  exact ⟨m, hget, fun k2 => get_encoded hlib js _ d k2 _ (keysSorted_mapSet m k v hs)
    (canonicalFields_mapSet m k v hc hk hv) hfs⟩

theorem set_get_same [GoLib F] (hlib : Lawful F) (js : JsonStore) (w : World) (d : String)
    (k : GoString) (v : Value F) (hk : validUTF8 k = true) (hv : Canonical v)
    (hset : (js.Set w d k v).1 = none) :
    (js.Get (js.Set w d k v).2 d k).1 = (v, none) := by
  obtain ⟨m, _, h⟩ := set_then_get hlib js w d k v hk hv hset
  rw [h k, mapGet_mapSet_same]

theorem set_get_other [GoLib F] (hlib : Lawful F) (js : JsonStore) (w : World) (d : String)
    (k k2 : GoString) (v x : Value F) (hk : validUTF8 k = true) (hv : Canonical v)
    (hset : (js.Set w d k v).1 = none) (hne : k2 ≠ k) :
    (js.Get (js.Set w d k v).2 d k2).1 = (x, none) ↔ (js.Get w d k2).1 = (x, none) := by
  obtain ⟨m, h1, h⟩ := set_then_get hlib js w d k v hk hv hset
  rw [h k2, mapGet_mapSet_other m k k2 v hne, h1 k2 x]
  cases hm : mapGet m k2 <;> simp

theorem store_ok_inv [GoLib F] (js : JsonStore) (w : World) (d : String) (v : Value F)
    (h : (js.Store w d v).1 = none) :
    serializable v = true ∧
      (js.Store w d v).2.fs (js.getPath d) = some (Node.file (encodeValue v)) := by
  simp only [JsonStore.Store, write, jsonMarshal] at h ⊢
  cases hs : serializable v with
  | false => simp [hs] at h
  | true =>
    simp only [hs, if_true] at h ⊢
    refine ⟨trivial, ?_⟩
    unfold ioutilWriteFile at h ⊢
    split at h
    · simp
    · cases h
    · cases h
    · cases h
    · split at h
      · cases h
      · simp

/-- Loading the text of a value into a zero-valued variable of its type yields
the value. -/
theorem jsonDecode_typed [GoLib F] (hlib : Lawful F) (v : Value F) (ty : GoType)
    (h : Typed ty v) :
    jsonDecode (encodeValue v) ⟨ty, zeroLike ty v⟩ = Except.ok v := by
  have hs := typed_serializable v ty h
  have key := storeJson_typed hlib v ty h
  unfold jsonDecode
  rw [readJson_encode hlib v hs]
  cases v with
  | null =>
    simp only [Typed] at h
    rcases h with h | h | h <;> subst h <;> rfl
  | chan => exact absurd h (by simp [Typed])
  | bool b => simpa only [toJson] using key
  | num x => simpa only [toJson] using key
  | int n => simpa only [toJson] using key
  | str s => simpa only [toJson] using key
  | arr xs => simpa only [toJson] using key
  | obj fs => simpa only [toJson] using key
  | record fs => simpa only [toJson] using key

theorem load_encoded [GoLib F] (hlib : Lawful F) (js : JsonStore) (w : World) (d : String)
    (v : Value F) (ty : GoType) (hv : Typed ty v)
    (h : w.fs (js.getPath d) = some (Node.file (encodeValue v))) :
    (js.Load w d ⟨ty, zeroLike ty v⟩).1 = (none, v) := by
  simp only [JsonStore.Load, read_file w _ _ _ h, jsonDecode_typed hlib v ty hv]

theorem read_error_fs [GoLib F] (w : World) (p : String) (t : Target F) (e : GoError)
    (h : (read w p t).1.1 = some e) (hne : e ≠ io_EOF) : (read w p t).2.fs = w.fs := by
  cases hp : w.fs p with
  | none =>
    cases hd : createError w p with
    | some errno => rw [read_absent_error w p t errno hp hd]; rfl
    | none =>
      have hdir : w.fs (dirOf p) = some Node.dir := by
        unfold createError at hd
        split at hd <;> first | assumption | cases hd
      rw [read_absent w p t hp hdir] at h
      simp only [Option.some.injEq] at h
      exact absurd h.symm hne
  | some n =>
    cases n with
    | dir => rw [read_dir w p t hp]; rfl
    | readOnlyDir => rw [read_readOnlyDir w p t hp]; rfl
    | noAccess => rw [read_noAccess w p t hp]; rfl
    | file c =>
      rw [read_file w p c t hp]
      split <;> rfl

/-- Every failure of the read-write open sends `getFile` on to `os.Create`: the
branch that returns the open error unchanged is never taken. -/
theorem getFile_open_failure (w : World) (p : String) (e : GoError)
    (h : (osOpenFile w p).1 = Except.error e) :
    getFile w p = osCreate (osOpenFile w p).2 p := by
  unfold getFile
  unfold osOpenFile at h ⊢
  split at h <;> simp_all [GoError.isPathError]

/-- A document that decodes into an `interface{}` as an object decodes into an
empty map as the same object. -/
theorem jsonDecode_iface_obj [GoLib F] (c : List Char) (fields : GoMap F)
    (h : jsonDecode c ⟨GoType.iface, Value.null⟩ = Except.ok (Value.obj fields)) :
    jsonDecode c (⟨GoType.map, Value.obj []⟩ : Target F) = Except.ok (Value.obj fields) := by
  unfold jsonDecode at h ⊢
  cases hj : readJson c with
  | error e => rw [hj] at h; cases h
  | ok j =>
    rw [hj] at h
    cases j with
    | null => cases h
    | bool b => cases h
    | number tok =>
      simp only [storeJson] at h
      split at h <;> cases h
    | string s => cases h
    | array items =>
      simp only [storeJson] at h
      split at h <;> cases h
    | object members =>
      simp only at h ⊢
      rw [storeJson_map_eq_iface members (Value.obj []) rfl]
      exact h

/-- The text of a JSON-representable array, string, number or boolean does not
go into a map: the decoder reports the kind of the value. -/
theorem jsonDecode_nonObject [GoLib F] (hlib : Lawful F) (v : Value F) (kind : String)
    (hv : Canonical v) (h : nonObjectKind v = some kind) :
    jsonDecode (encodeValue v) (⟨GoType.map, Value.obj []⟩ : Target F) =
      Except.error (GoError.unmarshalTypeError kind) := by
  unfold jsonDecode
  rw [readJson_encode hlib v (canonical_serializable v hv)]
  cases v <;> simp only [nonObjectKind, Option.some.injEq] at h <;> cases h <;> rfl

/-- The hypothesis of C1 that the key is valid UTF-8 is needed: a key that is
the single byte 0xFF is written as U+FFFD, and `Get` does not find it. -/
theorem set_bad_key_then_get :
    (testStore.Set (F := SmallInt) storeWorld "config" badKey (Value.str (goStr "world") : Value SmallInt)).1
      = none ∧
    (testStore.Get (F := SmallInt)
      (testStore.Set (F := SmallInt) storeWorld "config" badKey (Value.str (goStr "world") : Value SmallInt)).2
      "config" badKey).1 = (Value.null, some ErrNotFound) :=
  ⟨rfl, rfl⟩

/-- The hypothesis of C5 and C6 that the document path lies in an existing
directory is needed: for a document name with a directory part that does not
exist, `Get` and `Set` return the error of `os.Create` and no file appears. -/
theorem get_without_directory :
    (testStore.Get (F := SmallInt) storeWorld "sub/doc" (goStr "hello")).1 =
      ((Value.null : Value SmallInt),
        some (GoError.pathError "open" "/home/gopher/.testapp/sub/doc.json" Errno.ENOENT)) ∧
    (testStore.Set (F := SmallInt) storeWorld "sub/doc" (goStr "hello")
      (Value.str (goStr "world") : Value SmallInt)).1 =
      some (GoError.pathError "open" "/home/gopher/.testapp/sub/doc.json" Errno.ENOENT) ∧
    (testStore.Get (F := SmallInt) storeWorld "sub/doc" (goStr "hello")).2.fs
      "/home/gopher/.testapp/sub/doc.json" = none :=
  ⟨rfl, rfl, rfl⟩

/-- The struct of the test suite is a value that survives JSON. -/
theorem sampleConfig_typed :
    Typed GoType.struct (sampleConfig "Google" "www.google.com" 80) := by
  simp only [sampleConfig, Typed, TypedFields, fieldNames]
  decide

/-! ## The specified properties -/

/-- C1: for a lawful number library, a key that is valid UTF-8 and a
JSON-representable value `v` (numbers being float64): if `Set(d, k, v)` returns
no error, then `Get(d, k)` right afterwards returns `(v, nil)`, whatever the
filesystem held before. -/
theorem set_then_get_returns_value [GoLib F] (hlib : Lawful F) (js : JsonStore) (w : World)
    (d : String) (k : GoString) (v : Value F) (hk : validUTF8 k = true) (hv : Canonical v)
    (hset : (js.Set w d k v).1 = none) :
    (js.Get (js.Set w d k v).2 d k).1 = (v, none) :=
  set_get_same hlib js w d k v hk hv hset

theorem set_then_get_returns_value_witness :
    validUTF8 (goStr "hello") = true ∧
    Canonical (Value.str (goStr "world") : Value SmallInt) ∧
    (testStore.Set (F := SmallInt) storeWorld "config" (goStr "hello")
      (Value.str (goStr "world") : Value SmallInt)).1 = none ∧
    (testStore.Get (F := SmallInt)
      (testStore.Set (F := SmallInt) storeWorld "config" (goStr "hello")
        (Value.str (goStr "world") : Value SmallInt)).2
      "config" (goStr "hello")).1 = (Value.str (goStr "world"), none) :=
  ⟨rfl, rfl, rfl,
    set_then_get_returns_value smallInt_lawful testStore storeWorld "config" (goStr "hello")
      (Value.str (goStr "world")) rfl rfl rfl⟩

/-- C2: when the document file holds a JSON object (its text decodes into an
`interface{}` as the object `fields`) and `k` is not one of its members,
`Get(d, k)` returns `(nil, ErrNotFound)`. -/
theorem get_missing_key_not_found [GoLib F] (js : JsonStore) (w : World) (d : String)
    (k : GoString) (c : List Char) (fields : GoMap F)
    (hfile : w.fs (js.getPath d) = some (Node.file c))
    (hobj : jsonDecode c ⟨GoType.iface, Value.null⟩ = Except.ok (Value.obj fields))
    (hk : mapGet fields k = none) :
    (js.Get (F := F) w d k).1 = (Value.null, some ErrNotFound) := by
  rw [get_file js w d k c hfile, jsonDecode_iface_obj c fields hobj]
  simp only [Value.toMap, hk]

theorem get_missing_key_not_found_witness :
    helloWorld.fs (testStore.getPath "config") =
      some (Node.file "\x7b\"hello\":\"world\"\x7d".toList) ∧
    jsonDecode (F := SmallInt) "\x7b\"hello\":\"world\"\x7d".toList ⟨GoType.iface, Value.null⟩ =
      Except.ok (Value.obj [(goStr "hello", (Value.str (goStr "world") : Value SmallInt))]) ∧
    mapGet [(goStr "hello", (Value.str (goStr "world") : Value SmallInt))] (goStr "existsnot")
      = none ∧
    (testStore.Get (F := SmallInt) helloWorld "config" (goStr "existsnot")).1 =
      (Value.null, some ErrNotFound) :=
  ⟨rfl, rfl, rfl,
    get_missing_key_not_found testStore helloWorld "config" (goStr "existsnot")
      "\x7b\"hello\":\"world\"\x7d".toList
      [(goStr "hello", (Value.str (goStr "world") : Value SmallInt))] rfl rfl rfl⟩

/-- C3: for a lawful number library, keys that are valid UTF-8 and
JSON-representable values: after `Set(d, k1, v1)` and then `Set(d, k2, v2)`
succeed for distinct keys, `Get(d, k1)` still returns `(v1, nil)`; and from any
state, a successful `Set(d, k2, v2)` changes the value of no other key:
`Get(d, k)` returns `(x, nil)` afterwards exactly when it did before. -/
theorem set_leaves_other_keys [GoLib F] (hlib : Lawful F) (js : JsonStore) (w : World)
    (d : String) (k1 k2 : GoString) (v1 v2 : Value F) (hne : k1 ≠ k2)
    (hk1 : validUTF8 k1 = true) (hk2 : validUTF8 k2 = true)
    (hv1 : Canonical v1) (hv2 : Canonical v2) :
    ((js.Set w d k1 v1).1 = none →
      (js.Set (js.Set w d k1 v1).2 d k2 v2).1 = none →
      (js.Get (js.Set (js.Set w d k1 v1).2 d k2 v2).2 d k1).1 = (v1, none)) ∧
    ((js.Set w d k2 v2).1 = none →
      ∀ (k : GoString) (x : Value F), k ≠ k2 →
        ((js.Get (js.Set w d k2 v2).2 d k).1 = (x, none) ↔ (js.Get w d k).1 = (x, none))) := by
  constructor
  · intro h1 h2
    rw [set_get_other hlib js _ d k2 k1 v2 v1 hk2 hv2 h2 hne]
    exact set_get_same hlib js w d k1 v1 hk1 hv1 h1
  · intro h2 k x hk
    exact set_get_other hlib js w d k2 k v2 x hk2 hv2 h2 hk

theorem set_leaves_other_keys_witness :
    goStr "hello" ≠ goStr "debug" ∧
    validUTF8 (goStr "hello") = true ∧ validUTF8 (goStr "debug") = true ∧
    Canonical (Value.str (goStr "world") : Value SmallInt) ∧
    Canonical (Value.bool true : Value SmallInt) ∧
    (testStore.Get (F := SmallInt)
      (testStore.Set (F := SmallInt)
        (testStore.Set (F := SmallInt) storeWorld "config" (goStr "hello")
          (Value.str (goStr "world") : Value SmallInt)).2
        "config" (goStr "debug") (Value.bool true)).2 "config" (goStr "hello")).1 =
      (Value.str (goStr "world"), none) :=
  ⟨by decide, rfl, rfl, rfl, trivial,
    (set_leaves_other_keys smallInt_lawful testStore storeWorld "config" (goStr "hello")
      (goStr "debug") (Value.str (goStr "world")) (Value.bool true) (by decide) rfl rfl
      rfl trivial).1 rfl rfl⟩

/-- C4: for a lawful number library and a value `v` of Go type `ty` whose
structure survives JSON (`Typed ty v`: a struct of exported fields, or a
JSON-representable `interface{}`, map, slice, string, bool or int), whatever the
document file held before (any content, or nothing, the path then lying in a
directory in which files may be created): `Store(d, v)` returns no error and
leaves exactly the encoding of `v` in the file, and a following `Load` into a
zero-valued variable of type `ty` returns no error and yields `v`. -/
theorem store_then_load_round_trip [GoLib F] (hlib : Lawful F) (js : JsonStore) (w : World)
    (d : String) (ty : GoType) (v : Value F) (hv : Typed ty v)
    (hp : (w.fs (js.getPath d) = none ∧ w.fs (dirOf (js.getPath d)) = some Node.dir) ∨
      ∃ c, w.fs (js.getPath d) = some (Node.file c)) :
    (js.Store w d v).1 = none ∧
    (js.Store w d v).2.fs (js.getPath d) = some (Node.file (encodeValue v)) ∧
    (js.Load (js.Store w d v).2 d ⟨ty, zeroLike ty v⟩).1 = (none, v) := by
  have h1 : (js.Store w d v).1 = none := by
    simp only [JsonStore.Store, write_ok w _ v (typed_serializable v ty hv) hp]
  have h2 := (store_ok_inv js w d v h1).2
  exact ⟨h1, h2, load_encoded hlib js _ d v ty hv h2⟩

theorem store_then_load_round_trip_witness :
    Typed GoType.struct (sampleConfig "Google" "www.google.com" 80) ∧
    (∃ c, helloWorld.fs (testStore.getPath "config") = some (Node.file c)) ∧
    (testStore.Store helloWorld "config"
      (sampleConfig "Google" "www.google.com" 80)).2.fs "/home/gopher/.testapp/config.json" =
      some (Node.file
        "\x7b\"Name\":\"Google\",\"Host\":\"www.google.com\",\"Port\":80\x7d".toList) ∧
    (testStore.Load
      (testStore.Store helloWorld "config" (sampleConfig "Google" "www.google.com" 80)).2
      "config" ⟨GoType.struct, sampleConfig "" "" 0⟩).1 =
      (none, sampleConfig "Google" "www.google.com" 80) :=
  ⟨sampleConfig_typed, ⟨_, rfl⟩, rfl,
    (store_then_load_round_trip smallInt_lawful testStore helloWorld "config" GoType.struct
      (sampleConfig "Google" "www.google.com" 80) sampleConfig_typed (Or.inr ⟨_, rfl⟩)).2.2⟩

/-- C5: when the document file does not exist (its path lying in a directory in
which files may be created) or is empty, `Set(d, k, v)` of a serializable `v`
under a key that is valid UTF-8 returns no error and leaves in the file exactly
the JSON object with the single member `k: v`: the text `json.Marshal` gives for
the one-entry map, which (for a lawful number library) reads back as the object
whose only member has the name `k` and the value `v` was written as. -/
theorem set_on_empty_document [GoLib F] (hlib : Lawful F) (js : JsonStore) (w : World)
    (d : String) (k : GoString) (v : Value F) (hk : validUTF8 k = true)
    (hs : serializable v = true)
    (hp : (w.fs (js.getPath d) = none ∧ w.fs (dirOf (js.getPath d)) = some Node.dir) ∨
      w.fs (js.getPath d) = some (Node.file [])) :
    (js.Set w d k v).1 = none ∧
    (js.Set w d k v).2.fs (js.getPath d) =
      some (Node.file (encodeValue (Value.obj [(k, v)]))) ∧
    readJson (encodeValue (Value.obj [(k, v)])) =
      Except.ok (Json.object [(coerceUTF8 k, toJson v)]) ∧
    (coerceUTF8 k).map GoChar.rune = k := by
  have hser : serializable (Value.obj (mapSet [] k v)) = true := by
    simp [mapSet, serializable, serializableMembers, hs]
  have hread : readJson (encodeValue (Value.obj [(k, v)])) =
      Except.ok (Json.object [(coerceUTF8 k, toJson v)]) := by
    rw [readJson_encode hlib (Value.obj [(k, v)]) hser]
    simp only [toJson, toJsonMembers]
  refine ⟨?_, ?_, hread, map_rune_coerce k hk⟩
  · rcases hp with ⟨hp, hd⟩ | hp
    · simp only [JsonStore.Set, read_absent w _ _ hp hd, ne_eq, not_true_eq_false, if_false,
        Value.toMap]
      rw [write_ok _ _ _ hser (Or.inr ⟨[], by simp⟩)]
    · simp only [JsonStore.Set, read_file w _ [] _ hp, jsonDecode_nil, ne_eq,
        not_true_eq_false, if_false, Value.toMap]
      rw [write_ok _ _ _ hser (Or.inr ⟨[], by simpa using hp⟩)]
  · rcases hp with ⟨hp, hd⟩ | hp
    · simp only [JsonStore.Set, read_absent w _ _ hp hd, ne_eq, not_true_eq_false, if_false,
        Value.toMap]
      rw [write_ok _ _ _ hser (Or.inr ⟨[], by simp⟩)]
      simp [mapSet]
    · simp only [JsonStore.Set, read_file w _ [] _ hp, jsonDecode_nil, ne_eq,
        not_true_eq_false, if_false, Value.toMap]
      rw [write_ok _ _ _ hser (Or.inr ⟨[], by simpa using hp⟩)]
      simp [mapSet]

theorem set_on_empty_document_witness :
    validUTF8 (goStr "hello") = true ∧
    serializable (Value.str (goStr "world") : Value SmallInt) = true ∧
    (New freshWorld ".testapp" "config").1 = Except.ok testStore ∧
    storeWorld.fs (testStore.getPath "config") = none ∧
    storeWorld.fs (dirOf (testStore.getPath "config")) = some Node.dir ∧
    (testStore.SetDefault (F := SmallInt) storeWorld (goStr "hello")
      (Value.str (goStr "world") : Value SmallInt)).1 = none ∧
    (testStore.SetDefault (F := SmallInt) storeWorld (goStr "hello")
      (Value.str (goStr "world") : Value SmallInt)).2.fs "/home/gopher/.testapp/config.json" =
      some (Node.file "\x7b\"hello\":\"world\"\x7d".toList) :=
  ⟨rfl, rfl, rfl, rfl, rfl,
    (set_on_empty_document smallInt_lawful testStore storeWorld "config" (goStr "hello")
      (Value.str (goStr "world")) rfl rfl (Or.inl ⟨rfl, rfl⟩)).1,
    (set_on_empty_document smallInt_lawful testStore storeWorld "config" (goStr "hello")
      (Value.str (goStr "world")) rfl rfl (Or.inl ⟨rfl, rfl⟩)).2.1⟩

/-- C6: when the document file does not exist and its path lies in a directory
in which files may be created, `Get(d, k)` returns `(nil, io.EOF)`, which is not
`ErrNotFound`, and an empty file exists at the document path afterwards. -/
theorem get_on_missing_document [GoLib F] (js : JsonStore) (w : World) (d : String)
    (k : GoString) (hp : w.fs (js.getPath d) = none)
    (hd : w.fs (dirOf (js.getPath d)) = some Node.dir) :
    (js.Get (F := F) w d k).1 = (Value.null, some io_EOF) ∧ io_EOF ≠ ErrNotFound ∧
    (js.Get (F := F) w d k).2.fs (js.getPath d) = some (Node.file []) := by
  rw [get_absent js w d k hp hd]
  exact ⟨rfl, by decide, by simp⟩

theorem get_on_missing_document_witness :
    storeWorld.fs (testStore.getPath "config") = none ∧
    storeWorld.fs (dirOf (testStore.getPath "config")) = some Node.dir ∧
    (testStore.Get (F := SmallInt) storeWorld "config" (goStr "hello")).1 =
      (Value.null, some io_EOF) ∧
    (testStore.Get (F := SmallInt) storeWorld "config" (goStr "hello")).2.fs
      (testStore.getPath "config") = some (Node.file []) :=
  ⟨rfl, rfl, (get_on_missing_document testStore storeWorld "config" (goStr "hello") rfl rfl).1,
    (get_on_missing_document testStore storeWorld "config" (goStr "hello") rfl rfl).2.2⟩

/-- C7: when loading the document fails with an error other than `io.EOF`,
`Set(d, k, v)` returns that error and writes nothing: the world is the one the
failed load left, and the filesystem is as before. -/
theorem set_propagates_load_error [GoLib F] (js : JsonStore) (w : World) (d : String)
    (k : GoString) (v : Value F) (e : GoError)
    (hload : (js.Load w d (⟨GoType.map, Value.obj []⟩ : Target F)).1.1 = some e)
    (hne : e ≠ io_EOF) :
    (js.Set w d k v).1 = some e ∧
    (js.Set w d k v).2 = (js.Load w d (⟨GoType.map, Value.obj []⟩ : Target F)).2 ∧
    (js.Set w d k v).2.fs = w.fs := by
  simp only [JsonStore.Load] at hload ⊢
  have hfs := read_error_fs w _ _ e hload hne
  simp only [JsonStore.Set]
  rcases hr : read w (js.getPath d) (⟨GoType.map, Value.obj []⟩ : Target F) with ⟨⟨err, t⟩, w1⟩
  rw [hr] at hload hfs
  simp only at hload hfs
  subst hload
  simp only [ne_eq, hne, not_false_eq_true, if_true]
  exact ⟨trivial, trivial, hfs⟩

theorem set_propagates_load_error_witness :
    (testStore.Load (F := SmallInt) (worldWith (Node.file "\x7b\"hello\":".toList)) "config"
      (⟨GoType.map, Value.obj []⟩ : Target SmallInt)).1.1 = some io_ErrUnexpectedEOF ∧
    io_ErrUnexpectedEOF ≠ io_EOF ∧
    (testStore.Set (F := SmallInt) (worldWith (Node.file "\x7b\"hello\":".toList)) "config" (goStr "hello")
      (Value.str (goStr "world") : Value SmallInt)).1 = some io_ErrUnexpectedEOF ∧
    (testStore.Set (F := SmallInt) (worldWith (Node.file "\x7b\"hello\":".toList)) "config" (goStr "hello")
      (Value.str (goStr "world") : Value SmallInt)).2.fs =
      (worldWith (Node.file "\x7b\"hello\":".toList)).fs :=
  ⟨rfl, by decide,
    (set_propagates_load_error testStore (worldWith (Node.file "\x7b\"hello\":".toList))
      "config" (goStr "hello") (Value.str (goStr "world")) io_ErrUnexpectedEOF rfl
      (by decide)).1,
    (set_propagates_load_error testStore (worldWith (Node.file "\x7b\"hello\":".toList))
      "config" (goStr "hello") (Value.str (goStr "world")) io_ErrUnexpectedEOF rfl
      (by decide)).2.2⟩

/-- C8 (amended): after `Store` has written a JSON array, string, number or
boolean to a document, `Get` and `Set` on it both fail with the decoder's type
error (not `ErrNotFound`), and `Set` leaves the filesystem as it was. -/
theorem non_object_document_rejected [GoLib F] (hlib : Lawful F) (js : JsonStore) (w : World)
    (d : String) (k : GoString) (v x : Value F) (kind : String) (hv : Canonical v)
    (hkind : nonObjectKind v = some kind) (hstore : (js.Store w d v).1 = none) :
    (js.Get (js.Store w d v).2 d k).1 =
      ((Value.null : Value F), some (GoError.unmarshalTypeError kind)) ∧
    GoError.unmarshalTypeError kind ≠ ErrNotFound ∧
    (js.Set (js.Store w d v).2 d k x).1 = some (GoError.unmarshalTypeError kind) ∧
    (js.Set (js.Store w d v).2 d k x).2.fs = (js.Store w d v).2.fs := by
  have hfs := (store_ok_inv js w d v hstore).2
  have hdec := jsonDecode_nonObject hlib v kind hv hkind
  refine ⟨?_, by simp [ErrNotFound], ?_, ?_⟩
  · rw [get_file js _ d k _ hfs, hdec]
  · simp [JsonStore.Set, read_file _ _ _ _ hfs, hdec, io_EOF]
  · simp [JsonStore.Set, read_file _ _ _ _ hfs, hdec, io_EOF]

theorem non_object_document_rejected_witness :
    Canonical (Value.arr [Value.str (goStr "a"), Value.bool true] : Value SmallInt) ∧
    nonObjectKind (Value.arr [Value.str (goStr "a"), Value.bool true] : Value SmallInt) =
      some "array" ∧
    (testStore.Store (F := SmallInt) storeWorld "config"
      (Value.arr [Value.str (goStr "a"), Value.bool true] : Value SmallInt)).1 = none ∧
    (testStore.Get (F := SmallInt)
      (testStore.Store (F := SmallInt) storeWorld "config"
        (Value.arr [Value.str (goStr "a"), Value.bool true] : Value SmallInt)).2
      "config" (goStr "hello")).1 = (Value.null, some (GoError.unmarshalTypeError "array")) ∧
    (testStore.Set (F := SmallInt)
      (testStore.Store (F := SmallInt) storeWorld "config"
        (Value.arr [Value.str (goStr "a"), Value.bool true] : Value SmallInt)).2
      "config" (goStr "hello") (Value.str (goStr "world"))).1 =
      some (GoError.unmarshalTypeError "array") :=
  ⟨⟨rfl, trivial, trivial⟩, rfl, rfl,
    (non_object_document_rejected smallInt_lawful testStore storeWorld "config" (goStr "hello")
      (Value.arr [Value.str (goStr "a"), Value.bool true]) (Value.str (goStr "world")) "array"
      (⟨rfl, trivial, trivial⟩) rfl rfl).1,
    (non_object_document_rejected smallInt_lawful testStore storeWorld "config" (goStr "hello")
      (Value.arr [Value.str (goStr "a"), Value.bool true]) (Value.str (goStr "world")) "array"
      (⟨rfl, trivial, trivial⟩) rfl rfl).2.2.1⟩

/-- C8 as stated fails for `null`: after `Store` has written `null`, `Get`
returns `ErrNotFound` and `Set` succeeds and overwrites the document. -/
theorem null_document_accepted :
    (testStore.Store (F := SmallInt) storeWorld "config" (Value.null : Value SmallInt)).1 = none ∧
    (testStore.Store (F := SmallInt) storeWorld "config" (Value.null : Value SmallInt)).2.fs
      (testStore.getPath "config") = some (Node.file "null".toList) ∧
    (testStore.Get (F := SmallInt)
      (testStore.Store (F := SmallInt) storeWorld "config" (Value.null : Value SmallInt)).2 "config"
      (goStr "hello")).1 = (Value.null, some ErrNotFound) ∧
    (testStore.Set (F := SmallInt) (testStore.Store (F := SmallInt) storeWorld "config" (Value.null : Value SmallInt)).2
      "config" (goStr "hello") (Value.str (goStr "world") : Value SmallInt)).1 = none ∧
    (testStore.Set (F := SmallInt) (testStore.Store (F := SmallInt) storeWorld "config" (Value.null : Value SmallInt)).2
      "config" (goStr "hello") (Value.str (goStr "world") : Value SmallInt)).2.fs
      (testStore.getPath "config") =
      some (Node.file "\x7b\"hello\":\"world\"\x7d".toList) :=
  ⟨rfl, rfl, rfl, rfl, rfl⟩

/-- C9: when `New(appDir, name)` succeeds, a second `New(appDir, name2)` on the
resulting state succeeds too, is bound to the same directory
`homeDirectory/appDir`, and leaves the filesystem unchanged. -/
theorem new_twice_succeeds (w : World) (appDir name name2 : String) (js : JsonStore)
    (h : (New w appDir name).1 = Except.ok js) :
    ∃ home, w.home = some home ∧ js.path = pathJoin home appDir ∧
      (New (New w appDir name).2 appDir name2).1 = Except.ok ⟨pathJoin home appDir, name2⟩ ∧
      (New (New w appDir name).2 appDir name2).2.fs = (New w appDir name).2.fs := by
  cases hh : w.home with
  | none => simp [New, userCurrent, hh] at h
  | some home =>
    refine ⟨home, rfl, ?_⟩
    cases hp : w.fs (pathJoin home appDir) with
    | none =>
      cases hd : w.fs (dirOf (pathJoin home appDir)) with
      | none =>
        simp [New, userCurrent, hh, osStat, hp, lookupError, osIsNotExist, osMkdir,
          createError, hd] at h
      | some n =>
        cases n with
        | file c =>
          simp [New, userCurrent, hh, osStat, hp, lookupError, osIsNotExist, hd] at h
        | readOnlyDir =>
          simp [New, userCurrent, hh, osStat, hp, lookupError, osIsNotExist, osMkdir,
            createError, hd] at h
        | noAccess =>
          simp [New, userCurrent, hh, osStat, hp, lookupError, osIsNotExist, hd] at h
        | dir =>
          simp only [New, userCurrent, hh, osStat, hp, lookupError, hd, osIsNotExist, if_true,
            osMkdir, log_fs, createError, Except.ok.injEq] at h ⊢
          subst h
          simp [World.log, World.put, hh]
    | some n =>
      cases n with
      | noAccess => simp [New, userCurrent, hh, osStat, hp, osIsNotExist] at h
      | readOnlyDir =>
        simp only [New, userCurrent, hh, osStat, hp, Except.ok.injEq] at h ⊢
        subst h
        simp [World.log, hh, hp]
      | dir =>
        simp only [New, userCurrent, hh, osStat, hp, Except.ok.injEq] at h ⊢
        subst h
        simp [World.log, hh, hp]
      | file c =>
        simp only [New, userCurrent, hh, osStat, hp, Except.ok.injEq] at h ⊢
        subst h
        simp [World.log, hh, hp]

theorem new_twice_succeeds_witness :
    (New freshWorld ".testapp" "config").1 = Except.ok testStore ∧
    (New (New freshWorld ".testapp" "config").2 ".testapp" "other").1 =
      Except.ok ⟨"/home/gopher/.testapp", "other"⟩ ∧
    (New (New freshWorld ".testapp" "config").2 ".testapp" "other").2.fs =
      (New freshWorld ".testapp" "config").2.fs :=
  match new_twice_succeeds freshWorld ".testapp" "config" "other" testStore rfl with
  | ⟨_, hhome, _, h1, h2⟩ => by
    cases hhome
    exact ⟨rfl, h1, h2⟩

/-- C10 fails on the code: on a path that names a directory the read-write open
fails with EISDIR, which is not "does not exist", and `getFile` still goes on
to call `os.Create` on that path and returns what that call returns. -/
theorem getFile_creates_after_any_failure :
    (osOpenFile worldWithDir (testStore.getPath "config")).1 =
      Except.error (GoError.pathError "open" "/home/gopher/.testapp/config.json" Errno.EISDIR) ∧
    osIsNotExist (GoError.pathError "open" "/home/gopher/.testapp/config.json" Errno.EISDIR)
      = false ∧
    (getFile worldWithDir (testStore.getPath "config")).2.calls =
      [Syscall.openFile "/home/gopher/.testapp/config.json",
        Syscall.create "/home/gopher/.testapp/config.json"] ∧
    getFile worldWithDir (testStore.getPath "config") =
      osCreate (osOpenFile worldWithDir (testStore.getPath "config")).2
        (testStore.getPath "config") :=
  ⟨rfl, rfl, rfl, rfl⟩

end Localstore
